import Mathlib

/-!
Verification of the corruption-detection and reconstruction pipeline of the
Math-Extractor repository (services/ocr).  Strings are embedded as `List Char`;
Python regular-expression rewrites are embedded as explicit deterministic
scanners (each scanner's doc comment names the regex and the source location).
Python `float` confidence arithmetic is modelled with `ℚ`; all confidence
updates in the source add fixed decimal constants well inside the exactly
representable range, so the order relations proved below are unaffected by
the rational model.
-/

namespace MathExtractor

/-! ## Generic string utilities -/

/-- Whitespace as matched by Python `str.strip` / `str.split` / regex `\s`
on ASCII text: space, tab, newline, carriage return, vertical tab, form feed. -/
def pyWs (c : Char) : Bool :=
  c = ' ' ∨ c = '\t' ∨ c = '\n' ∨ c = '\r' ∨ c = '\x0b' ∨ c = '\x0c'

/-- Drop leading whitespace (Python `lstrip`). -/
def stripLeft (l : List Char) : List Char := l.dropWhile (fun c => pyWs c)

/-- Python `str.strip()`: drop whitespace at both ends. -/
def strip (l : List Char) : List Char :=
  (stripLeft (stripLeft l).reverse).reverse

/-- Substring test: Python `pat in s`. -/
def containsSub (pat l : List Char) : Bool :=
  l.tails.any (fun t => pat.isPrefixOf t)

/-- Character membership: Python `c in s` for a single character. -/
def containsChar (c : Char) (l : List Char) : Bool :=
  l.any (fun x => x = c)

/-- Number of occurrences of a character (Python `s.count(c)`). -/
def countChar (c : Char) (l : List Char) : Nat :=
  (l.filter (fun x => x = c)).length

/-- Case-insensitive prefix test against an already-lowercase pattern
(Python regular expressions compiled with `re.IGNORECASE`). -/
def ciPrefix : List Char → List Char → Bool
  | [], _ => true
  | _ :: _, [] => false
  | p :: ps, c :: cs => p = c.toLower ∧ ciPrefix ps cs

/-- Match a literal pattern and return the remainder of the input. -/
def parseLit : List Char → List Char → Option (List Char)
  | [], l => some l
  | _ :: _, [] => none
  | p :: ps, c :: cs => if p = c then parseLit ps cs else none

/-- Word characters for the regex `\b` boundary: `[A-Za-z0-9_]`. -/
def isWordChar (c : Char) : Bool := c.isAlphanum ∨ c = '_'

/-- Scan for a backslash followed by an ASCII letter (regex `\\[A-Za-z]`). -/
def containsBackslashAlpha : List Char → Bool
  | a :: c :: t => (a = '\\' && c.isAlpha) || containsBackslashAlpha (c :: t)
  | _ => false

/-! ## DynamicLaTeXReconstructor (services/ocr/dynamic_latex_reconstructor.py)

The reconstructor pipeline is `reconstruct`:
strip → strip one `$...$` wrapper → `_normalize_unicode` → `_remove_ocr_noise`
→ `_fix_script_noise` → `_fix_braces` → strip. -/

/-- Noise glyphs removed by `_remove_ocr_noise` (all of them outside ASCII). -/
def garbageChars : List Char :=
  ['•', '·', '●', '○', '■', '□', '◦', '€', '£', '¥', '©', '®', '™', '¿', '¡', '«', '»', '�']

/-- First half of `_remove_ocr_noise`: delete every noise glyph
(the Python code runs `s.replace(g, "")` for each glyph in turn, which is
the same as filtering all of them out). -/
def remove_garbage (l : List Char) : List Char :=
  l.filter (fun c => ¬ garbageChars.contains c)

/-- Map every whitespace character to a plain space. -/
def wsToSpace (c : Char) : Char := if pyWs c then ' ' else c

/-- Collapse runs of adjacent spaces to a single space. -/
def dedupSpaces : List Char → List Char
  | [] => []
  | [c] => [c]
  | a :: b :: t =>
    if a = ' ' ∧ b = ' ' then dedupSpaces (b :: t) else a :: dedupSpaces (b :: t)

/-- Second half of `_remove_ocr_noise`: `" ".join(s.split())`, i.e. every
whitespace run becomes a single space and edge whitespace is dropped;
embedded as map-to-space, collapse runs, strip. -/
def collapse_ws (l : List Char) : List Char :=
  strip (dedupSpaces (l.map wsToSpace))

/-- Regex `__+` → `_` of `_fix_script_noise`: each run of two or more
underscores becomes one underscore (runs of one are already single). -/
def collapse_underscores : List Char → List Char
  | [] => []
  | [c] => [c]
  | a :: b :: t =>
    if a = '_' ∧ b = '_' then collapse_underscores (b :: t)
    else a :: collapse_underscores (b :: t)

/-- Matcher for one occurrence of the regex `([A-Za-z0-9])_\s*([A-Za-z0-9])`
of `_fix_script_noise` with its replacement; returns the replacement
for the group-rewrite `\1_{\2}` and the unconsumed rest on success.
The greedy `\s*` needs no backtracking: if the character after the
whitespace run is not alphanumeric, no shorter run can succeed either,
because whitespace is never alphanumeric. -/
def tryScriptMatch : List Char → Option (List Char × List Char)
  | a :: u :: rest =>
    if a.isAlphanum ∧ u = '_' then
      match rest.dropWhile (fun c => pyWs c) with
      | b :: rest' =>
        if b.isAlphanum then some ([a, '_', '\x7b', b, '\x7d'], rest') else none
      | [] => none
    else none
  | _ => none

/-- Left-to-right non-overlapping rewriting with `tryScriptMatch`
(the semantics of `re.sub`): on a match emit the replacement and continue
after the match, otherwise emit one character and continue. The fuel is
always instantiated with the input length, which suffices because each
step consumes at least one character. -/
def subscript_brace_go : Nat → List Char → List Char
  | 0, l => l
  | _ + 1, [] => []
  | f + 1, c :: t =>
    match tryScriptMatch (c :: t) with
    | some (rep, rest) => rep ++ subscript_brace_go f rest
    | none => c :: subscript_brace_go f t

/-- Regex sub `([A-Za-z0-9])_\s*([A-Za-z0-9])` → `\1_{\2}`. -/
def subscript_brace (l : List Char) : List Char := subscript_brace_go l.length l

/-- Punctuation class `[),\]]` of the lookahead rewrites in
`_fix_script_noise`. -/
def scriptPunct (c : Char) : Bool := c = ')' ∨ c = ',' ∨ c = ']'

/-- Regex sub `_(?=[),\]])` → `` (remove an underscore standing directly
before `)`, `,` or `]`; the lookahead is not consumed, so scanning
continues at the punctuation character). -/
def drop_underscore_before_punct : List Char → List Char
  | a :: c :: t =>
    if a = '_' ∧ scriptPunct c then drop_underscore_before_punct (c :: t)
    else a :: drop_underscore_before_punct (c :: t)
  | l => l

/-- Regex sub `\^(?=[),\]])` → `` (same for a caret). -/
def drop_caret_before_punct : List Char → List Char
  | a :: c :: t =>
    if a = '^' ∧ scriptPunct c then drop_caret_before_punct (c :: t)
    else a :: drop_caret_before_punct (c :: t)
  | l => l

/-- `_fix_script_noise`: the four regex rewrites in source order. -/
def fix_script_noise (l : List Char) : List Char :=
  drop_caret_before_punct
    (drop_underscore_before_punct (subscript_brace (collapse_underscores l)))

/-- Helper for `_fix_braces`: remove up to `d` closing braces from the end
(the input is reversed); stops at the first character that is not `}`. -/
def dropCloseBracesRev : Nat → List Char → List Char
  | 0, l => l
  | d + 1, '\x7d' :: t => dropCloseBracesRev d t
  | _ + 1, l => l

/-- `_fix_braces`: append the deficit of closing braces when there are more
opens than closes; when there are more closes, strip closing braces from
the end while the deficit persists (never touching the interior). -/
def fix_braces (s : List Char) : List Char :=
  let opens := countChar '\x7b' s
  let closes := countChar '\x7d' s
  if opens > closes then s ++ List.replicate (opens - closes) '\x7d'
  else if closes > opens then (dropCloseBracesRev (closes - opens) s.reverse).reverse
  else s

/-- Removal of one surrounding `$...$` wrapper at the top of `reconstruct`
(`startswith("$") and endswith("$")`, then `latex[1:-1].strip()`). -/
def dollarStrip (l : List Char) : List Char :=
  if l.head? = some '$' ∧ l.getLast? = some '$' then strip (l.drop 1).dropLast else l

/-- NFKD normalization followed by removal of combining (Mn) marks, as in
`_normalize_unicode`. On ASCII text NFKD is the identity and no ASCII
character is a combining mark, so on the ASCII inputs to which every
theorem below restricts itself this map is the identity; the embedding
records exactly that restriction. -/
def normalize_unicode (l : List Char) : List Char := l

/-- Adjacent-pair exclusion: no two neighbouring characters of the string
satisfy `f`. Instantiated with double-space, double-underscore and
script-before-punctuation pair tests below. -/
def noPairAdj (f : Char → Char → Bool) : List Char → Bool
  | a :: b :: t => !f a b && noPairAdj f (b :: t)
  | _ => true

/-- Propositional fixed-point predicate for the subscript scanner: no suffix
of the string starts a match of `([A-Za-z0-9])_\s*([A-Za-z0-9])`. -/
def noScriptP (l : List Char) : Prop := ∀ s, s <:+ l → tryScriptMatch s = none

/-- Stages of `reconstruct` after delimiter removal, ending with the final
`latex.strip()`. -/
def recon_core (l : List Char) : List Char :=
  strip (fix_braces (fix_script_noise (collapse_ws (remove_garbage (normalize_unicode l)))))

/-- `DynamicLaTeXReconstructor.reconstruct`: empty input yields `""`;
otherwise strip, remove one `$...$` wrapper, and run the repair stages. -/
def reconstruct (latex : List Char) : List Char :=
  if strip latex = [] then []
  else recon_core (dollarStrip (strip latex))

/-! ## ULTRA recovery engine (services/ocr/mathml_recovery_pro.py) -/

/-- Parse a maximal run of `letter_{alnum}` pairs, the repetition unit of
the regex `(?:[A-Za-z]_\{[A-Za-z0-9]\}){2,}` of `_collapse_letter_subscripts`;
returns the pairs and the unconsumed rest. -/
def pairsOf : List Char → List (Char × Char) × List Char
  | a :: u :: ob :: b :: cb :: rest =>
    if a.isAlpha ∧ u = '_' ∧ ob = '\x7b' ∧ b.isAlphanum ∧ cb = '\x7d' then
      let pr := pairsOf rest
      ((a, b) :: pr.1, pr.2)
    else ([], a :: u :: ob :: b :: cb :: rest)
  | l => ([], l)

/-- Reassemble the text a run of pairs was matched from. -/
def seqOf (ps : List (Char × Char)) : List Char :=
  ps.flatMap (fun p => [p.1, '_', '\x7b', p.2, '\x7d'])

/-- Replacement function `_merge_simple` of `_collapse_letter_subscripts`:
concatenate base letters then subscript characters and wrap the candidate
as `\mathrm{...}` (the length guard is kept from the source; it always
holds for runs of two or more pairs). -/
def mergeSimple (ps : List (Char × Char)) : List Char :=
  let candidate := ps.map Prod.fst ++ ps.map Prod.snd
  if candidate.length ≥ 2 then ("\\mathrm\x7b").data ++ candidate ++ ['\x7d']
  else seqOf ps

/-- One full `simple_pattern.sub(_merge_simple, cur)` pass: left-to-right,
non-overlapping, greedy run matching; a position starting fewer than two
pairs is emitted verbatim. Fuel is instantiated with the input length. -/
def collapseStepGo : Nat → List Char → List Char
  | 0, l => l
  | _ + 1, [] => []
  | f + 1, c :: t =>
    let pr := pairsOf (c :: t)
    if pr.1.length ≥ 2 then mergeSimple pr.1 ++ collapseStepGo f pr.2
    else c :: collapseStepGo f t

/-- One substitution pass of `_collapse_letter_subscripts`. -/
def collapseStep (l : List Char) : List Char := collapseStepGo l.length l

/-- Fixed-point loop of `_collapse_letter_subscripts`: up to three passes,
stopping early as soon as a pass changes nothing. -/
def collapse_loop : Nat → List Char → List Char
  | 0, cur => cur
  | n + 1, cur =>
    let nw := collapseStep cur
    if nw = cur then cur else collapse_loop n nw

/-- `_collapse_letter_subscripts` (log argument omitted; the log is handled
where the claims need it): empty input returned unchanged, otherwise at
most three substitution passes with early exit on convergence. -/
def collapse_letter_subscripts (tex : List Char) : List Char :=
  if tex = [] then tex else collapse_loop 3 tex

/-- Bool version of "no position of the string starts a run of two or more
`letter_{alnum}` pairs"; such strings are fixed points of `collapseStep`. -/
def noPairRun (l : List Char) : Bool :=
  l.tails.all (fun t => (pairsOf t).1.length < 2)

/-- Propositional form of `noPairRun`: no suffix of the string starts a
match of the `(?:[A-Za-z]_\x7b[A-Za-z0-9]\x7d)\x7b2,\x7d` scanner. -/
def noRunP (l : List Char) : Prop := ∀ s, s <:+ l → (pairsOf s).1.length ≤ 1

/-- Python `html.escape(s, quote=True)` on one character. The sequential
`str.replace` calls of the stdlib implementation commute with per-character
mapping because no replacement output contains a character replaced later. -/
def html_escape_char (c : Char) : List Char :=
  if c = '&' then ("&amp;").data
  else if c = '<' then ("&lt;").data
  else if c = '>' then ("&gt;").data
  else if c = '"' then ("&quot;").data
  else if c = Char.ofNat 39 then ("&#x27;").data
  else [c]

/-- Python `html.escape(s, quote=True)`. -/
def html_escape (l : List Char) : List Char :=
  (l.map html_escape_char).flatten

/-- `_wrap_as_mathml_from_latex`: wrap (escaped) LaTeX in an `<mtext>` node
inside a minimal MathML document. -/
def wrap_as_mathml_from_latex (latex : List Char) : List Char :=
  ("<math xmlns=\"http://www.w3.org/1998/Math/MathML\"><mrow><mtext>").data
    ++ html_escape latex ++ ("</mtext></mrow></math>").data

/-- Final fallback step of `ultra_mathml_recover` (mathml_recovery_pro.py
lines 763-768): when every conversion attempt produced no MathML, the
repaired LaTeX candidate is wrapped in an `<mtext>` node and the confidence
is increased by `0.05`; otherwise the converted MathML is kept. -/
def ultra_final_fallback (candidate mathml_out : List Char) (confidence : ℚ) :
    List Char × ℚ :=
  if mathml_out = [] then (wrap_as_mathml_from_latex candidate, confidence + 1/20)
  else (mathml_out, confidence)

/-- Confidence clamp at the end of `ultra_mathml_recover` (lines 770-772). -/
def ultra_confidence_clamp (c : ℚ) : ℚ := if c > 1 then 1 else c

/-! ### Corruption-indicator matchers -/

/-- Scan for `\\[A-Za-z]` occurring before any newline (the reachable part of
the regex fragment `.*\\[A-Za-z]`, since `.` does not cross newlines). -/
def findBackslashAlphaNoNewline : List Char → Bool
  | [] => false
  | x :: t =>
    if x = '\n' then false
    else if x = '\\' then
      (match t with
       | c :: _ => c.isAlpha
       | [] => false) || findBackslashAlphaNoNewline t
    else findBackslashAlphaNoNewline t

/-- Continuation of the regex `<mtext\b[^>]*>.*\\[A-Za-z]` after the literal
`<mtext`: the word boundary, then `[^>]*>` (deterministically up to the first
`>`), then a backslash-letter before any newline. -/
def mtextTailMatch (t : List Char) : Bool :=
  (match t with
   | [] => true
   | c :: _ => ¬ isWordChar c) &&
  (match t.dropWhile (fun c => c ≠ '>') with
   | '>' :: r => findBackslashAlphaNoNewline r
   | _ => false)

/-- Regex search `<mtext\b[^>]*>.*\\[A-Za-z]` with `re.IGNORECASE`
(`_detect_corruption_indicators` check 1; also pipeline.py line 354). -/
def has_mtext_latex (l : List Char) : Bool :=
  l.tails.any (fun t =>
    if ciPrefix ("<mtext").data t then mtextTailMatch (t.drop 6) else false)

/-- Parse one unit of the regex `(?:<mi>\s*\\?[a-zA-Z]\s*</mi>\s*)`:
`<mi>`, optional whitespace, optional backslash, one letter, optional
whitespace, `</mi>`, optional whitespace. Returns the rest on success. -/
def miUnit (l : List Char) : Option (List Char) :=
  match parseLit ("<mi>").data l with
  | none => none
  | some r =>
    let r := r.dropWhile (fun c => pyWs c)
    let r := match r with
      | '\\' :: t => t
      | _ => r
    match r with
    | c :: t =>
      if c.isAlpha then
        match parseLit ("</mi>").data (t.dropWhile (fun x => pyWs x)) with
        | none => none
        | some u => some (u.dropWhile (fun x => pyWs x))
      else none
    | [] => none

/-- Count the units of a maximal `<mi>` run starting at the head. -/
def miRunCount : Nat → List Char → Nat
  | 0, _ => 0
  | f + 1, l =>
    match miUnit l with
    | some r => 1 + miRunCount f r
    | none => 0

/-- Regex search `(?:<mi>\s*\\?[a-zA-Z]\s*</mi>\s*){4,}`
(`_detect_corruption_indicators` check 2; pipeline.py `_is_corrupted_mathml`
uses the same pattern). -/
def has_mi_run4 (l : List Char) : Bool :=
  l.tails.any (fun t => miRunCount t.length t ≥ 4)

/-- Head matcher for the regex `[a-z]_\{[a-z0-9]\}[a-z]_\{[a-z0-9]\}`
(`_detect_corruption_indicators` check 3, case sensitive). -/
def pairPairAt : List Char → Bool
  | c1 :: u1 :: b1 :: c2 :: k1 :: c3 :: u2 :: b2 :: c4 :: k2 :: _ =>
    u1 = '_' && b1 = '\x7b' && k1 = '\x7d' && u2 = '_' && b2 = '\x7b' && k2 = '\x7d' &&
      c1.isLower && (c2.isLower || c2.isDigit) && c3.isLower && (c4.isLower || c4.isDigit)
  | _ => false

/-- Regex search `[a-z]_\{[a-z0-9]\}[a-z]_\{[a-z0-9]\}`. -/
def has_letter_subscript_pairs (l : List Char) : Bool :=
  l.tails.any (fun t => pairPairAt t)

/-- Head matcher for the regex `<m[iot][^>]*>\\[A-Za-z]`
(`_detect_corruption_indicators` check 4; also pipeline.py line 115). -/
def mTagBackslashAt : List Char → Bool
  | '<' :: 'm' :: c :: rest =>
    if c = 'i' ∨ c = 'o' ∨ c = 't' then
      match rest.dropWhile (fun x => x ≠ '>') with
      | '>' :: '\\' :: d :: _ => d.isAlpha
      | _ => false
    else false
  | _ => false

/-- Regex search `<m[iot][^>]*>\\[A-Za-z]`. -/
def has_mtag_backslash (l : List Char) : Bool :=
  l.tails.any (fun t => mTagBackslashAt t)

/-- Literal double-escaped LaTeX check of `_detect_corruption_indicators`
(check 5; also pipeline.py lines 110-112): `"\\\\left" in s` etc., where the
Python literals denote backslash-backslash followed by the command word. -/
def has_double_escaped (l : List Char) : Bool :=
  containsSub ("\\\\left").data l ∨ containsSub ("\\\\right").data l ∨
    containsSub ("\\\\frac").data l

/-- Matcher for one spelled-out word with optional whitespace between the
letters (regexes such as `l\s*e\s*f\s*t`), compared case-insensitively. -/
def spacedWordAt : List Char → List Char → Bool
  | [], _ => true
  | c :: ws, x :: t => x.toLower = c ∧ spacedWordAt ws (t.dropWhile (fun y => pyWs y))
  | _ :: _, [] => false

/-- Regex search for a spelled-out word (`re.IGNORECASE`). -/
def has_spaced_word (w l : List Char) : Bool :=
  l.tails.any (fun t => spacedWordAt w t)

/-- Loose shredded-command scan shared by `_detect_corruption_indicators`
(check 6) and pipeline.py `_is_corrupted_mathml`: the first matching pattern
of `left`, `right`, `sum`, `frac`, `mathbb` wins. -/
def firstShredded (l : List Char) : Option String :=
  if has_spaced_word ("left").data l then some "shredded pattern: l\\s*e\\s*f\\s*t"
  else if has_spaced_word ("right").data l then some "shredded pattern: r\\s*i\\s*g\\s*h\\s*t"
  else if has_spaced_word ("sum").data l then some "shredded pattern: s\\s*u\\s*m"
  else if has_spaced_word ("frac").data l then some "shredded pattern: f\\s*r\\s*a\\s*c"
  else if has_spaced_word ("mathbb").data l then some "shredded pattern: m\\s*a\\s*t\\s*h\\s*b\\s*b"
  else none

/-- `_detect_corruption_indicators` (mathml_recovery_pro.py lines 435-476):
six checks, each contributing its reason string in source order; the result
pairs the corruption flag with the reason list. -/
def detect_corruption_indicators (mathml : List Char) : Bool × List String :=
  let r1 := has_mtext_latex mathml
  let r2 := has_mi_run4 mathml
  let r3 := has_letter_subscript_pairs mathml
  let r4 := has_mtag_backslash mathml
  let r5 := has_double_escaped mathml
  let r6 := firstShredded mathml
  (r1 ∨ r2 ∨ r3 ∨ r4 ∨ r5 ∨ r6.isSome,
    (if r1 then ["mtext contains LaTeX commands"] else []) ++
    (if r2 then ["shredded letter sequences in <mi> tags"] else []) ++
    (if r3 then ["letter-by-letter subscript patterns"] else []) ++
    (if r4 then ["backslash tokens in MathML tags"] else []) ++
    (if r5 then ["double-escaped LaTeX commands"] else []) ++
    (match r6 with
     | some r => [r]
     | none => []))

/-! ## Unified ingestion pipeline (services/ocr/pipeline.py) -/

/-- Source classification of `detect_input_type` (both pipelines). -/
inductive SourceType
  | mathml
  | latex
  | plain
  | empty
deriving DecidableEq, Repr

/-- `MathExpressionPipeline.detect_input_type` (pipeline.py lines 64-78):
MathML markers first (a `<math` root with a closing tag, or any structural
tag), then LaTeX markers (a backslash command, `_` or `^`, or a dollar
sign), otherwise plain text. -/
def detect_input_type (raw : List Char) : SourceType :=
  if strip raw = [] then .empty
  else
    let text := strip raw
    if (("<math").data.isPrefixOf text ∧ containsSub ("</math").data text) ∨
        containsSub ("<mrow").data text ∨ containsSub ("<msub").data text ∨
        containsSub ("<msup").data text ∨ containsSub ("<mfrac").data text ∨
        containsSub ("<mi>").data text ∨ containsSub ("<mo>").data text then .mathml
    else if containsBackslashAlpha text ∨
        text.any (fun c => c = '_' ∨ c = '^') ∨ containsChar '$' text then .latex
    else .plain

/-- Count of `re.findall(r"<mi\b", s)`-style occurrences: the literal tag
prefix followed by a word boundary. -/
def countTagOpen (pat : List Char) (l : List Char) : Nat :=
  (l.tails.filter (fun t =>
    pat.isPrefixOf t &&
    (match t.drop pat.length with
     | [] => true
     | c :: _ => ¬ isWordChar c))).length

/-- Head matcher for `</msub>\s*</msub>` (pipeline.py line 107). -/
def msubDoubleAt (t : List Char) : Bool :=
  match parseLit ("</msub>").data t with
  | some r => (parseLit ("</msub>").data (r.dropWhile (fun c => pyWs c))).isSome
  | none => false

/-- Head matcher for `<mi>\\[a-z]</mi>` with `re.IGNORECASE`
(pipeline.py line 119; the flag makes `[a-z]` match both cases). -/
def miBackslashAt (t : List Char) : Bool :=
  ciPrefix ("<mi>").data t &&
  (match t.drop 4 with
   | '\\' :: c :: rest => c.isAlpha && ciPrefix ("</mi>").data rest
   | _ => false)

/-- Head matcher for `<msub[^>]*>\s*<mi>\\[a-z]</mi>` with `re.IGNORECASE`
(pipeline.py line 123). -/
def msubMiBackslashAt (t : List Char) : Bool :=
  ciPrefix ("<msub").data t &&
  (match (t.drop 5).dropWhile (fun c => c ≠ '>') with
   | '>' :: r => miBackslashAt (r.dropWhile (fun c => pyWs c))
   | _ => false)

/-- `MathExpressionPipeline._is_corrupted_mathml` (pipeline.py lines 83-126):
inputs shorter than 40 characters are never reported; otherwise the checks
run in source order. -/
def is_corrupted_mathml (mathml : List Char) : Bool :=
  if mathml = [] ∨ mathml.length < 40 then false
  else if has_mi_run4 mathml then true
  else if (firstShredded mathml).isSome then true
  else if countTagOpen ("<mi").data mathml > 12 ∧ countTagOpen ("<mo").data mathml < 2 then true
  else if mathml.tails.any (fun t => msubDoubleAt t) then true
  else if has_double_escaped mathml then true
  else if has_mtag_backslash mathml then true
  else if mathml.tails.any (fun t => miBackslashAt t) then true
  else if mathml.tails.any (fun t => msubMiBackslashAt t) then true
  else false

/-- Head matcher for `\\[a-z]_\{[a-z]\}[a-z]_\{[a-z]\}`
(`_is_corrupted_latex` pattern 1, case sensitive). -/
def corruptLatexP1At : List Char → Bool
  | '\\' :: c1 :: '_' :: '\x7b' :: c2 :: '\x7d' :: c3 :: '_' :: '\x7b' :: c4 :: '\x7d' :: _ =>
    c1.isLower ∧ c2.isLower ∧ c3.isLower ∧ c4.isLower
  | _ => false

/-- Head matcher for the three-pair variant (`_is_corrupted_latex`
pattern 2). -/
def corruptLatexP2At : List Char → Bool
  | '\\' :: c1 :: '_' :: '\x7b' :: c2 :: '\x7d' :: c3 :: '_' :: '\x7b' :: c4 :: '\x7d'
      :: c5 :: '_' :: '\x7b' :: c6 :: '\x7d' :: _ =>
    c1.isLower ∧ c2.isLower ∧ c3.isLower ∧ c4.isLower ∧ c5.isLower ∧ c6.isLower
  | _ => false

/-- Head matcher for `\\[a-z]\s+[a-z]\s+[a-z]` (`_is_corrupted_latex`
pattern 3). -/
def corruptLatexP3At : List Char → Bool
  | '\\' :: c1 :: rest =>
    c1.isLower &&
      (let w1 := rest.takeWhile (fun c => pyWs c)
       let r1 := rest.dropWhile (fun c => pyWs c)
       !w1.isEmpty &&
         match r1 with
         | c2 :: r2 =>
           c2.isLower &&
             (let w2 := r2.takeWhile (fun c => pyWs c)
              let r3 := r2.dropWhile (fun c => pyWs c)
              !w2.isEmpty &&
                match r3 with
                | c3 :: _ => c3.isLower
                | [] => false)
         | [] => false)
  | _ => false

/-- `MathExpressionPipeline._is_corrupted_latex` (pipeline.py lines 236-252). -/
def is_corrupted_latex (latex : List Char) : Bool :=
  if latex = [] then false
  else
    latex.tails.any (fun t => corruptLatexP1At t) ∨
    latex.tails.any (fun t => corruptLatexP2At t) ∨
    latex.tails.any (fun t => corruptLatexP3At t)

/-- Result record of both pipelines (`PipelineResult` TypedDict with
`total=False`: the three trailing fields may be absent). -/
structure PipelineResult where
  source_type : SourceType
  clean_latex : List Char
  mathml : List Char
  intermediate_mathml : Option (List Char) := none
  raw_input : List Char
  recovery_confidence : Option ℚ := none
  recovery_log : Option (List String) := none

/-- Output dictionary of `ultra_mathml_recover` as consumed by
`_recover_mathml` (both the plain and the `clean_`-prefixed keys). -/
structure RecoverOut where
  mathml : List Char := []
  clean_mathml : List Char := []
  latex : List Char := []
  clean_latex : List Char := []
  confidence : ℚ := 0
  log : List String := []

/-- Injected collaborators of `MathExpressionPipeline` (constructor
arguments and module-level imports): the MathML cleaner, the external
LaTeX→MathML compiler, the optional ULTRA recovery module, the optional
OpenAI LaTeX cleanup, and whether an OpenAI API key is configured.
Each callable may raise, modelled by `Except`. -/
structure PipelineDeps where
  cleaner : List Char → Except String (List Char)
  converter : List Char → Except String (List Char)
  recover : Option (List Char → Except String RecoverOut)
  openaiClean : List Char → Except String (List Char × ℚ)
  hasApiKey : Bool

/-- Python `x or y` on strings: the left operand unless it is empty. -/
def orElseL (a b : List Char) : List Char := if a = [] then b else a

/-- Error-marker MathML returned by `_safe_latex_to_mathml` on failure. -/
def conversionFailedML : List Char :=
  ("<math xmlns=\"http://www.w3.org/1998/Math/MathML\" data-error=\"conversion-failed\"/>").data

/-- `MathExpressionPipeline._safe_latex_to_mathml` (pipeline.py lines
225-231): every converter exception is caught and replaced by a valid
MathML root carrying a machine-readable error marker. -/
def safe_latex_to_mathml (d : PipelineDeps) (latex : List Char) : List Char :=
  match d.converter latex with
  | .ok m => m
  | .error _ => conversionFailedML

/-- `MathExpressionPipeline._recover_mathml` (pipeline.py lines 131-220):
a missing recovery module, a crash inside it, and an empty recovery result
each produce a marked result; otherwise the recovered artifacts are
repackaged. Exceptions never escape. -/
def recover_mathml (d : PipelineDeps) (raw_mathml : List Char) : PipelineResult :=
  match d.recover with
  | none =>
    { source_type := .mathml, clean_latex := [],
      mathml := ("<math xmlns=\"http://www.w3.org/1998/Math/MathML\" data-error=\"ultra-missing\"/>").data,
      intermediate_mathml := some raw_mathml, raw_input := raw_mathml,
      recovery_confidence := some 0,
      recovery_log := some ["FORCE ULTRA recovery module not installed"] }
  | some f =>
    match f raw_mathml with
    | .error exc =>
      { source_type := .mathml, clean_latex := [],
        mathml := ("<math xmlns=\"http://www.w3.org/1998/Math/MathML\" data-error=\"ultra-crash\"/>").data,
        intermediate_mathml := some raw_mathml, raw_input := raw_mathml,
        recovery_confidence := some 0,
        recovery_log := some [("ULTRA crash: " ++ exc : String)] }
    | .ok out =>
      let clean_mathml := orElseL out.mathml (orElseL out.clean_mathml [])
      let clean_latex := orElseL out.latex (orElseL out.clean_latex [])
      if clean_mathml ≠ [] then
        { source_type := .mathml, clean_latex := clean_latex, mathml := clean_mathml,
          intermediate_mathml := some raw_mathml, raw_input := raw_mathml,
          recovery_confidence := some out.confidence, recovery_log := some out.log }
      else
        { source_type := .mathml, clean_latex := clean_latex,
          mathml := ("<math xmlns=\"http://www.w3.org/1998/Math/MathML\" data-error=\"mathml-recovery-failed\"/>").data,
          intermediate_mathml := some raw_mathml, raw_input := raw_mathml,
          recovery_confidence := some out.confidence, recovery_log := some out.log }

/-- `MathExpressionPipeline._try_openai_conversion` (pipeline.py lines
298-313): permanently disabled in the source — it logs a warning and
returns `None` unconditionally. -/
def try_openai_conversion (_latex : List Char) : Option RecoverOut := none

/-- `MathExpressionPipeline._try_openai_latex_cleanup` (pipeline.py lines
267-296): the cleaned LaTeX is adopted only when the external call
succeeds, actually changed the text, and reported confidence above `0.5`;
every failure path returns the input unchanged. -/
def try_openai_latex_cleanup (d : PipelineDeps) (corrupted : List Char) : List Char :=
  if ¬ d.hasApiKey then corrupted
  else
    match d.openaiClean corrupted with
    | .error _ => corrupted
    | .ok (cleaned, confidence) =>
      if cleaned ≠ corrupted ∧ confidence > 1/2 then cleaned else corrupted

/-- Packaging of an (unreachable) successful `_try_openai_conversion`
result in the LaTeX branch of `ingest` (pipeline.py lines 400-408 and
450-458). -/
def openaiResult (ai : RecoverOut) (clean_latex raw_text fallback_ml : List Char) :
    PipelineResult :=
  { source_type := .latex,
    clean_latex := orElseL ai.latex clean_latex,
    mathml := orElseL ai.mathml fallback_ml,
    intermediate_mathml := none, raw_input := raw_text,
    recovery_confidence := some ai.confidence,
    recovery_log := some ai.log }

/-- `MathExpressionPipeline.ingest` (pipeline.py lines 318-484), with the
final `raise RuntimeError` of line 484 embedded as the error case. All
collaborator failures are caught inside the branches, mirroring the
source's `try`/`except` structure. -/
def ingest (d : PipelineDeps) (raw_text : List Char) : Except String PipelineResult :=
  let source := detect_input_type raw_text
  if source = .empty then
    .ok { source_type := .empty, clean_latex := [], mathml := [], raw_input := raw_text }
  else if source = .mathml then
    if is_corrupted_mathml raw_text then .ok (recover_mathml d raw_text)
    else
      let cleaned_mathml :=
        match d.cleaner raw_text with
        | .ok v => orElseL v raw_text
        | .error _ => raw_text
      if is_corrupted_mathml cleaned_mathml then .ok (recover_mathml d cleaned_mathml)
      else if has_mtext_latex cleaned_mathml then .ok (recover_mathml d cleaned_mathml)
      else
        .ok { source_type := .mathml, clean_latex := [], mathml := cleaned_mathml,
              intermediate_mathml := some cleaned_mathml, raw_input := raw_text,
              recovery_confidence := some 1, recovery_log := some [] }
  else if source = .latex then
    let input_is_corrupted := is_corrupted_latex raw_text
    let clean_latex := if input_is_corrupted then raw_text else reconstruct raw_text
    let is_corrupted := is_corrupted_latex clean_latex
    let should_use_openai := d.hasApiKey
    match (if is_corrupted ∧ should_use_openai then try_openai_conversion clean_latex else none) with
    | some ai =>
      if ai.mathml ≠ [] then .ok (openaiResult ai clean_latex raw_text [])
      else
        let clean_latex := try_openai_latex_cleanup d clean_latex
        let mathml := safe_latex_to_mathml d clean_latex
        .ok { source_type := .latex, clean_latex := clean_latex, mathml := mathml,
              intermediate_mathml := none, raw_input := raw_text }
    | none =>
      let clean_latex :=
        if is_corrupted ∧ should_use_openai then try_openai_latex_cleanup d clean_latex
        else clean_latex
      let mathml := safe_latex_to_mathml d clean_latex
      let is_mathml_corrupted :=
        if mathml ≠ [] ∧ ¬ containsSub ("data-error").data mathml then
          is_corrupted_mathml mathml
        else false
      let should_try_openai :=
        (containsSub ("data-error").data mathml ∨ mathml = [] ∨ is_mathml_corrupted) ∧
          d.hasApiKey
      let should_try_openai :=
        if is_corrupted ∧ d.hasApiKey ∧ ¬ should_try_openai then true else should_try_openai
      match (if should_try_openai then try_openai_conversion clean_latex else none) with
      | some ai =>
        if ai.mathml ≠ [] then .ok (openaiResult ai clean_latex raw_text mathml)
        else
          .ok { source_type := .latex, clean_latex := clean_latex, mathml := mathml,
                intermediate_mathml := none, raw_input := raw_text }
      | none =>
        .ok { source_type := .latex, clean_latex := clean_latex, mathml := mathml,
              intermediate_mathml := none, raw_input := raw_text }
  else if source = .plain then
    let clean_latex := reconstruct raw_text
    let mathml := safe_latex_to_mathml d clean_latex
    .ok { source_type := .plain, clean_latex := clean_latex, mathml := mathml,
          intermediate_mathml := none, raw_input := raw_text }
  else .error "Unhandled pipeline state"

/-! ## Second pipeline (services/ocr/math_expression_pipeline.py) -/

/-- `MathExpressionPipeline.detect_input_type` of
math_expression_pipeline.py (lines 61-80): explicit LaTeX markers first
(a dollar sign, then a backslash command), then MathML markers, then
plain text. -/
def mep_detect_input_type (raw : List Char) : SourceType :=
  if strip raw = [] then .empty
  else
    let t := strip raw
    if containsChar '$' t then .latex
    else if containsBackslashAlpha t then .latex
    else if ("<math").data.isPrefixOf t ∨ containsSub ("<mrow").data t ∨
        containsSub ("<msub").data t ∨ containsSub ("<mi>").data t ∨
        containsSub ("<mo>").data t then .mathml
    else .plain

/-- Confidence update of `MathExpressionPipeline._recover_mathml` in
math_expression_pipeline.py (lines 171-179): after successfully converting
ULTRA-provided LaTeX to MathML, `confidence = min(1.0, confidence + 0.15)`. -/
def mep_recover_latex_convert_update (confidence : ℚ) : ℚ :=
  min 1 (confidence + 15/100)

/-! ## Markup compiler adapter (services/ocr/latex_to_mathml.py)

The pre-compile part of `LatexToMathML.convert` (lines 26-59): the empty
branch, delimiter stripping, `_normalize_pix2tex_noise` (which first runs
`_fix_corrupted_latex_commands`), the truncated-input rejection, and the
small conservative repairs including the bounded brace append. Each regex
substitution is embedded as a deterministic scanner; every pattern here
needs no backtracking because its optional parts can never absorb a
character the following literal also accepts. -/

/-- Left-to-right non-overlapping `re.sub` driver: `m` returns the
replacement and the unconsumed rest on a match at the current position.
Every matcher used below consumes at least one character, so the input
length suffices as fuel. -/
def rewriteGo (m : List Char → Option (List Char × List Char)) :
    Nat → List Char → List Char
  | 0, l => l
  | _ + 1, [] => []
  | f + 1, c :: t =>
    match m (c :: t) with
    | some (rep, rest) => rep ++ rewriteGo m f rest
    | none => c :: rewriteGo m f t

/-- Run a scanner over the whole input. -/
def rewrite (m : List Char → Option (List Char × List Char)) (l : List Char) :
    List Char :=
  rewriteGo m l.length l

/-- Matcher for `\(([^,]+),\s*\\j\s*\)` → `(\1, j)`
(`_fix_corrupted_latex_commands` rule 1). The greedy `[^,]+` is forced to
stop exactly at the first comma, so the scan is deterministic. -/
def mJParen : List Char → Option (List Char × List Char)
  | '(' :: rest =>
    let body := rest.takeWhile (fun c => c ≠ ',')
    if body.isEmpty then none
    else
      match rest.dropWhile (fun c => c ≠ ',') with
      | ',' :: r2 =>
        match r2.dropWhile (fun c => pyWs c) with
        | '\\' :: 'j' :: r4 =>
          match r4.dropWhile (fun c => pyWs c) with
          | ')' :: r5 => some ('(' :: body ++ (", j)").data, r5)
          | _ => none
        | _ => none
      | _ => none
  | _ => none

/-- Character class `[,}\])}\s]` of rule 2. -/
def jClass (c : Char) : Bool :=
  c = ',' ∨ c = '\x7d' ∨ c = ']' ∨ c = ')' ∨ pyWs c

/-- Matcher for `\\j([,}\])}\s])` → `j\1` (rule 2). -/
def mJClass : List Char → Option (List Char × List Char)
  | '\\' :: 'j' :: c :: t => if jClass c then some (['j', c], t) else none
  | _ => none

/-- Matcher for `\\j\s*([a-zA-Z])` → `j \1` (rule 3). -/
def mJLetter : List Char → Option (List Char × List Char)
  | '\\' :: 'j' :: rest =>
    match rest.dropWhile (fun c => pyWs c) with
    | c :: r => if c.isAlpha then some (['j', ' ', c], r) else none
    | [] => none
  | _ => none

/-- Matcher for `\\j\s*\\in` → `j \in` (rule 4). -/
def mJIn : List Char → Option (List Char × List Char)
  | '\\' :: 'j' :: rest =>
    match parseLit ("\\in").data (rest.dropWhile (fun c => pyWs c)) with
    | some r => some (("j \\in").data, r)
    | none => none
  | _ => none

/-- Matcher for `\\subseteqT\\leqt` → `0 \leq \tau \leq t` (rule 5). -/
def mSubTLeqt (l : List Char) : Option (List Char × List Char) :=
  match parseLit ("\\subseteqT\\leqt").data l with
  | some r => some (("0 \\leq \\tau \\leq t").data, r)
  | none => none

/-- Matcher for `\\subseteqT\s*\\leqt` → `0 \leq \tau \leq t` (rule 6). -/
def mSubTWsLeqt (l : List Char) : Option (List Char × List Char) :=
  match parseLit ("\\subseteqT").data l with
  | some r =>
    match parseLit ("\\leqt").data (r.dropWhile (fun c => pyWs c)) with
    | some r2 => some (("0 \\leq \\tau \\leq t").data, r2)
    | none => none
  | none => none

/-- Matcher family for `\\cmd([A-Z])` → `\cmd \1` (rules 7-9). -/
def mCmdUpper (cmd : List Char) (l : List Char) : Option (List Char × List Char) :=
  match parseLit ('\\' :: cmd) l with
  | some (c :: r) => if c.isUpper then some ('\\' :: cmd ++ [' ', c], r) else none
  | _ => none

/-- Matcher family for `\\cmd([a-zA-Z])` → `\cmd \1` (rules 10-11). -/
def mCmdAlpha (cmd : List Char) (l : List Char) : Option (List Char × List Char) :=
  match parseLit ('\\' :: cmd) l with
  | some (c :: r) => if c.isAlpha then some ('\\' :: cmd ++ [' ', c], r) else none
  | _ => none

/-- Matcher for `\\subseteqT(?!\\leq)` → `\subseteq \tau` (rule 12). -/
def mSubTNoLeq (l : List Char) : Option (List Char × List Char) :=
  match parseLit ("\\subseteqT").data l with
  | some r =>
    if ("\\leq").data.isPrefixOf r then none
    else some (("\\subseteq \\tau").data, r)
  | none => none

/-- Matcher for `\\(subseteq|subset|supseteq|supset)([A-Z])` → `\\\1 \2`
(rule 13); the alternatives are tried in source order. -/
def mSetCmdUpper (l : List Char) : Option (List Char × List Char) :=
  match mCmdUpper ("subseteq").data l with
  | some res => some res
  | none =>
    match mCmdUpper ("subset").data l with
    | some res => some res
    | none =>
      match mCmdUpper ("supseteq").data l with
      | some res => some res
      | none => mCmdUpper ("supset").data l

/-- `_fix_corrupted_latex_commands` (latex_to_mathml.py lines 1379-1425):
the thirteen substitutions in source order; empty input is returned
unchanged. -/
def fix_corrupted_latex_commands (text : List Char) : List Char :=
  if text = [] then text
  else
    let f := rewrite mJParen text
    let f := rewrite mJClass f
    let f := rewrite mJLetter f
    let f := rewrite mJIn f
    let f := rewrite mSubTLeqt f
    let f := rewrite mSubTWsLeqt f
    let f := rewrite (mCmdUpper ("in").data) f
    let f := rewrite (mCmdUpper ("subseteq").data) f
    let f := rewrite (mCmdUpper ("subset").data) f
    let f := rewrite (mCmdAlpha ("leq").data) f
    let f := rewrite (mCmdAlpha ("geq").data) f
    let f := rewrite mSubTNoLeq f
    rewrite mSetCmdUpper f

/-- Count a maximal run of `\displaystyle\s*` units and return the rest. -/
def dsCount : Nat → List Char → Nat × List Char
  | 0, l => (0, l)
  | f + 1, l =>
    match parseLit ("\\displaystyle").data l with
    | some r =>
      let pr := dsCount f (r.dropWhile (fun c => pyWs c))
      (pr.1 + 1, pr.2)
    | none => (0, l)

/-- Matcher for `(\\displaystyle\s*){2,}` → `\displaystyle `
(normalize rule: collapse repeated display-style markers). -/
def mDisplaystyle (l : List Char) : Option (List Char × List Char) :=
  let pr := dsCount l.length l
  if pr.1 ≥ 2 then some (("\\displaystyle ").data, pr.2) else none

/-- Literal-deletion matcher (used for `\\left\.` and `\\right\.`). -/
def mDeleteLit (pat : List Char) (l : List Char) : Option (List Char × List Char) :=
  match parseLit pat l with
  | some r => some ([], r)
  | none => none

/-- Literal-replacement matcher (used for the `str.replace` calls on
`\left\|` and `\right\|`). -/
def mReplaceLit (pat rep : List Char) (l : List Char) : Option (List Char × List Char) :=
  match parseLit pat l with
  | some r => some (rep, r)
  | none => none

/-- Matcher for `\\left\s+(?=\\)` → `\left` (and the `right` twin): the
whitespace run is removed, the lookahead backslash is not consumed. -/
def mTightenCmd (cmd : List Char) (l : List Char) : Option (List Char × List Char) :=
  match parseLit ('\\' :: cmd) l with
  | some r =>
    if (r.takeWhile (fun c => pyWs c)).isEmpty then none
    else
      match r.dropWhile (fun c => pyWs c) with
      | '\\' :: rest => some ('\\' :: cmd, '\\' :: rest)
      | _ => none
  | none => none

/-- Matcher for `\\left\s*$` → `` (and the `right` twin): the command plus
all remaining whitespace is deleted when nothing else follows. -/
def mTrailingCmd (cmd : List Char) (l : List Char) : Option (List Char × List Char) :=
  match parseLit ('\\' :: cmd) l with
  | some r => if r.dropWhile (fun c => pyWs c) = [] then some ([], []) else none
  | none => none

/-- Outer-double-brace unwrapping of `_normalize_pix2tex_noise`
(latex_to_mathml.py lines 1449-1453). -/
def pix2texOuterBraces (l : List Char) : List Char :=
  if ("\x7b\x7b").data.isPrefixOf l ∧ ("\x7d\x7d").data.isSuffixOf l then
    let inner := ((l.drop 2).dropLast).dropLast
    if inner ≠ [] ∧ countChar '\x7b' inner = countChar '\x7d' inner then
      if inner.head? = some '\\' then inner else '\x7b' :: inner ++ ['\x7d']
    else l
  else l

/-- `_normalize_pix2tex_noise` (latex_to_mathml.py lines 1427-1469). -/
def normalize_pix2tex_noise (text : List Char) : List Char :=
  if text = [] then text
  else
    let n := fix_corrupted_latex_commands text
    let n := rewrite mDisplaystyle n
    let n := pix2texOuterBraces n
    let n := rewrite (mDeleteLit ("\\left.").data) n
    let n := rewrite (mDeleteLit ("\\right.").data) n
    let n := rewrite (mReplaceLit ("\\left\\|").data (("\\left|").data)) n
    let n := rewrite (mReplaceLit ("\\right\\|").data (("\\right|").data)) n
    let n := rewrite (mTightenCmd ("left").data) n
    let n := rewrite (mTightenCmd ("right").data) n
    let n := rewrite (mTrailingCmd ("left").data) n
    rewrite (mTrailingCmd ("right").data) n

/-- Intermediate value of `convert` after stripping, delimiter removal and
`_normalize_pix2tex_noise` (latex_to_mathml.py lines 31-39), on which the
truncation check operates. -/
def convert_normalized (latex : List Char) : List Char :=
  normalize_pix2tex_noise (dollarStrip (strip latex))

/-- Truncation test of `convert` (line 47): regex `\{+\s*$`, i.e. the last
non-whitespace character is an opening brace. -/
def endsWithOpenBraces (l : List Char) : Bool :=
  match l.reverse.dropWhile (fun c => pyWs c) with
  | '\x7b' :: _ => true
  | _ => false

/-- Bounded brace repair of `convert` (latex_to_mathml.py lines 57-59):
append the deficit of closing braces only when it is between 1 and 3. -/
def convert_brace_append (l : List Char) : List Char :=
  let diff := countChar '\x7b' l - countChar '\x7d' l
  if 0 < diff ∧ diff ≤ 3 then l ++ List.replicate diff '\x7d' else l

/-- Outcome of the pre-compile phase of `LatexToMathML.convert`:
the well-formed empty tree returned for empty input (lines 26-29), the
`ValueError` raised for truncated input (lines 45-49), or the repaired
LaTeX handed to the later conversion stages. -/
inductive ConvertPre
  | emptyTree (markup : List Char)
  | truncated
  | proceed (latex : List Char)
deriving DecidableEq, Repr

/-- Markup returned by `convert` for empty input. -/
def empty_math_element : List Char :=
  ("<math xmlns=\"http://www.w3.org/1998/Math/MathML\" display=\"block\"></math>").data

/-- Pre-compile phase of `LatexToMathML.convert` (latex_to_mathml.py lines
26-59): empty input returns an empty math element; after normalization,
input ending in unmatched opening braces raises; otherwise the conservative
repairs run (close an unclosed `array`, close an unclosed `\left|`, append
a brace deficit of at most three). -/
def latex_to_mathml_precompile (latex : List Char) : ConvertPre :=
  if strip latex = [] then .emptyTree empty_math_element
  else
    let l := convert_normalized latex
    if countChar '\x7b' l > countChar '\x7d' l ∧ endsWithOpenBraces l then .truncated
    else
      let l :=
        if containsSub ("\\begin\x7barray").data l ∧
            ¬ containsSub ("\\end\x7barray").data l then
          l ++ ("\\end\x7barray\x7d").data
        else l
      let l :=
        if containsSub ("\\left|").data l ∧ ¬ containsSub ("\\right|").data l then
          l ++ ("\\right|").data
        else l
      .proceed (convert_brace_append l)

/-! ## Theorems -/

/-- Claim C10, counterexample: on the input `"<mi>x</mi>$"`, which contains
both a MathML token tag and a dollar sign, the detector of pipeline.py
answers `mathml` while the detector of math_expression_pipeline.py answers
`latex`; the two pipelines do not classify inputs equivalently. -/
theorem c10_counterexample :
    detect_input_type (("<mi>x</mi>$").data) = SourceType.mathml ∧
    mep_detect_input_type (("<mi>x</mi>$").data) = SourceType.latex ∧
    SourceType.mathml ≠ SourceType.latex := by
  refine ⟨by decide, by decide, by decide⟩

/-- Claim C10 (amended): the two input-type detectors agree exactly on the
`empty` classification — both return `empty` precisely when the input is
empty or whitespace-only — but they diverge on other classes (see the
counterexample). -/
theorem c10_detectors_agree_on_empty (raw : List Char) :
    detect_input_type raw = SourceType.empty ↔
      mep_detect_input_type raw = SourceType.empty := by
  unfold detect_input_type mep_detect_input_type
  by_cases hs : strip raw = []
  · simp [hs]
  · simp only [if_neg hs]
    constructor
    · intro h; exfalso; revert h; split_ifs <;> simp
    · intro h; exfalso; revert h; split_ifs <;> simp

/-- Claim C7, counterexample: the confidence update performed after the
repair attempt that converts ULTRA-recovered LaTeX to MathML
(math_expression_pipeline.py lines 171-179) strictly increases the
confidence: from `0.5` it moves to `0.65`, so confidence is not
monotonically non-increasing across repair attempts. -/
theorem c7_counterexample :
    mep_recover_latex_convert_update (1/2) = 13/20 ∧
      ¬ mep_recover_latex_convert_update (1/2) ≤ 1/2 := by
  unfold mep_recover_latex_convert_update
  norm_num

/-- Claim C7 (amended): within one run, confidence is monotonically
non-decreasing across repair attempts — a successful repair attempt adds a
fixed bonus — and the updated value stays clamped at `1`. -/
theorem c7_confidence_nondecreasing (c : ℚ) (h : c ≤ 1) :
    c ≤ mep_recover_latex_convert_update c ∧ mep_recover_latex_convert_update c ≤ 1 := by
  unfold mep_recover_latex_convert_update
  exact ⟨le_min h (by linarith), min_le_left _ _⟩

/-- Witness for the amended claim C7 at confidence `0.5`. -/
theorem c7_confidence_nondecreasing_witness :
    (1/2 : ℚ) ≤ mep_recover_latex_convert_update (1/2) ∧
      mep_recover_latex_convert_update (1/2) ≤ 1 :=
  c7_confidence_nondecreasing (1/2) (by norm_num)

/-- Claim C5, counterexample: `DynamicLaTeXReconstructor._fix_braces`
auto-repairs a brace deficit of five — larger than three — by appending
five closing braces, instead of surfacing a violation. -/
theorem c5_counterexample :
    countChar '\x7b' (("\x7b\x7b\x7b\x7b\x7b").data) = 5 ∧
    countChar '\x7d' (("\x7b\x7b\x7b\x7b\x7b").data) = 0 ∧
    fix_braces (("\x7b\x7b\x7b\x7b\x7b").data) =
      (("\x7b\x7b\x7b\x7b\x7b\x7d\x7d\x7d\x7d\x7d").data) := by
  refine ⟨by decide, by decide, by decide⟩

/-- Claim C5 (amended): only the markup-compiler adapter respects the
boundary — the brace repair of `LatexToMathML.convert` (lines 57-59) never
appends balancing braces when the deficit exceeds three; the reconstructor's
`_fix_braces` and the ULTRA recovery engine balance unconditionally (see the
counterexample). -/
theorem c5_convert_no_repair_above_three (l : List Char)
    (h : countChar '\x7d' l + 3 < countChar '\x7b' l) :
    convert_brace_append l = l := by
  have hc : ¬ (0 < countChar '\x7b' l - countChar '\x7d' l ∧
      countChar '\x7b' l - countChar '\x7d' l ≤ 3) := by omega
  show (if 0 < countChar '\x7b' l - countChar '\x7d' l ∧
      countChar '\x7b' l - countChar '\x7d' l ≤ 3 then
      l ++ List.replicate (countChar '\x7b' l - countChar '\x7d' l) '\x7d' else l) = l
  rw [if_neg hc]

/-- Witness for the amended claim C5 at a deficit of five. -/
theorem c5_convert_no_repair_above_three_witness :
    countChar '\x7d' (("\x7b\x7b\x7b\x7b\x7b").data) + 3 <
        countChar '\x7b' (("\x7b\x7b\x7b\x7b\x7b").data) ∧
      convert_brace_append (("\x7b\x7b\x7b\x7b\x7b").data) =
        (("\x7b\x7b\x7b\x7b\x7b").data) :=
  ⟨by decide, c5_convert_no_repair_above_three _ (by decide)⟩

/-- Claim C6, counterexample: `LatexToMathML.convert` handles the empty
input by returning a well-formed empty math element — a success value —
rather than a `CompileError` (latex_to_mathml.py lines 26-29 versus the
raising branches). -/
theorem c6_counterexample :
    latex_to_mathml_precompile [] = ConvertPre.emptyTree empty_math_element ∧
      ConvertPre.emptyTree empty_math_element ≠ ConvertPre.truncated := by
  refine ⟨by decide, by decide⟩

/-- Claim C6 (amended): in the pre-compile phase of `LatexToMathML.convert`,
empty or whitespace-only input returns the well-formed empty math element
(not an error), while input whose normalized form has more opening than
closing braces and ends in opening braces raises a truncation error before
compilation. -/
theorem c6_precompile_empty_and_truncated :
    (∀ l, strip l = [] →
      latex_to_mathml_precompile l = ConvertPre.emptyTree empty_math_element) ∧
    (∀ l, strip l ≠ [] →
      countChar '\x7d' (convert_normalized l) < countChar '\x7b' (convert_normalized l) →
      endsWithOpenBraces (convert_normalized l) = true →
      latex_to_mathml_precompile l = ConvertPre.truncated) := by
  constructor
  · intro l h
    unfold latex_to_mathml_precompile
    simp [h]
  · intro l h1 h2 h3
    unfold latex_to_mathml_precompile
    simp only [if_neg h1]
    rw [if_pos ⟨h2, h3⟩]

/-- Witness for the amended claim C6: the empty input and the truncated
input `"x{{"`. -/
theorem c6_precompile_empty_and_truncated_witness :
    latex_to_mathml_precompile [] = ConvertPre.emptyTree empty_math_element ∧
      latex_to_mathml_precompile (("x\x7b\x7b").data) = ConvertPre.truncated :=
  ⟨c6_precompile_empty_and_truncated.1 [] (by decide),
   c6_precompile_empty_and_truncated.2 (("x\x7b\x7b").data) (by decide) (by decide)
     (by decide)⟩

/-- Claim C2 (confirmed): for every choice of injected collaborators — each
of which may fail — and every input string, `MathExpressionPipeline.ingest`
returns a `PipelineResult` and never propagates an exception: every failure
of the cleaner, the converter or the recovery engine is caught inside the
branches, and the final `raise RuntimeError` of line 484 is unreachable
because the input-type detector only produces the four handled classes. -/
theorem c2_ingest_total (d : PipelineDeps) (raw : List Char) :
    ∃ r, ingest d raw = Except.ok r := by
  unfold ingest
  rcases h : detect_input_type raw with _ | _ | _ | _ <;>
    simp [h, try_openai_conversion] <;> split_ifs <;> exact ⟨_, rfl⟩

/-- Claim C4, counterexample: the input `"l_{e}f_{t}"` carries the shredded
signature of the command `left` (its letters spread across single-character
subscripted fragments) — the recovery engine's own detector flags it — yet
the pipeline's corruption classifier `_is_corrupted_mathml` reports nothing,
because it returns `False` for every input shorter than 40 characters. -/
theorem c4_counterexample :
    has_letter_subscript_pairs (("l_\x7be\x7df_\x7bt\x7d").data) = true ∧
    (detect_corruption_indicators (("l_\x7be\x7df_\x7bt\x7d").data)).1 = true ∧
    is_corrupted_mathml (("l_\x7be\x7df_\x7bt\x7d").data) = false := by
  refine ⟨by decide, by decide, by decide⟩

/-- Claim C4 (amended): the recovery engine's classifier
`_detect_corruption_indicators` reports at least one violation for every
input containing a letter-by-letter subscript run (two adjacent
`letter_{char}` fragments), regardless of the input's length; the
pipeline's `_is_corrupted_mathml`, by contrast, ignores all inputs shorter
than 40 characters (see the counterexample). -/
theorem c4_detector_flags_pair_patterns (u v : List Char) (c1 c2 c3 c4 : Char)
    (h1 : c1.isLower = true) (h2 : (c2.isLower || c2.isDigit) = true)
    (h3 : c3.isLower = true) (h4 : (c4.isLower || c4.isDigit) = true) :
    (detect_corruption_indicators
      (u ++ c1 :: '_' :: '\x7b' :: c2 :: '\x7d' :: c3 :: '_' :: '\x7b' :: c4 :: '\x7d' :: v)).2 ≠ [] := by
  have hr3 : has_letter_subscript_pairs
      (u ++ c1 :: '_' :: '\x7b' :: c2 :: '\x7d' :: c3 :: '_' :: '\x7b' :: c4 :: '\x7d' :: v) = true := by
    unfold has_letter_subscript_pairs
    rw [List.any_eq_true]
    refine ⟨c1 :: '_' :: '\x7b' :: c2 :: '\x7d' :: c3 :: '_' :: '\x7b' :: c4 :: '\x7d' :: v,
      (List.mem_tails _ _).mpr (List.suffix_append u _), ?_⟩
    simp [pairPairAt, h1, h2, h3, h4]
  have hm : ("letter-by-letter subscript patterns" : String) ∈
      (detect_corruption_indicators
        (u ++ c1 :: '_' :: '\x7b' :: c2 :: '\x7d' :: c3 :: '_' :: '\x7b' :: c4 :: '\x7d' :: v)).2 := by
    unfold detect_corruption_indicators
    simp [hr3]
  exact List.ne_nil_of_mem hm

/-- Witness for the amended claim C4 at the shredded-`left` input. -/
theorem c4_detector_flags_pair_patterns_witness :
    (detect_corruption_indicators
      ([] ++ 'l' :: '_' :: '\x7b' :: 'e' :: '\x7d' :: 'f' :: '_' :: '\x7b' :: 't' :: '\x7d' :: [])).2 ≠ [] :=
  c4_detector_flags_pair_patterns [] [] 'l' 'e' 'f' 't' (by decide) (by decide)
    (by decide) (by decide)

/-- Characters that `html.escape` replaces are never ASCII letters, so
letters pass through unchanged. -/
theorem html_escape_char_alpha (c : Char) (hc : c.isAlpha = true) :
    html_escape_char c = [c] := by
  unfold html_escape_char
  split_ifs with a b d e f
  · subst a; simp at hc
  · subst b; simp at hc
  · subst d; simp at hc
  · subst e; simp at hc
  · subst f; simp at hc
  · rfl

/-- Escaping distributes over concatenation. -/
theorem html_escape_append (a b : List Char) :
    html_escape (a ++ b) = html_escape a ++ html_escape b := by
  simp [html_escape]

/-- Escaping unfolds one character at a time. -/
theorem html_escape_cons (x : Char) (p : List Char) :
    html_escape (x :: p) = html_escape_char x ++ html_escape p := by
  simp [html_escape]

/-- Escaping never introduces a newline. -/
theorem html_escape_all_ne_newline (p : List Char)
    (h : p.all (fun x => x ≠ '\n') = true) :
    (html_escape p).all (fun x => x ≠ '\n') = true := by
  induction p with
  | nil => simp [html_escape]
  | cons x p ih =>
    simp only [List.all_cons, Bool.and_eq_true] at h
    rw [html_escape_cons, List.all_append]
    simp only [Bool.and_eq_true]
    refine ⟨?_, ih h.2⟩
    have hx : x ≠ '\n' := by simpa using h.1
    unfold html_escape_char
    split_ifs <;> simp_all

/-- The backslash-letter scan succeeds on any text that places a backslash
and a letter after a newline-free prefix. -/
theorem find_bsl_in_append (X Y : List Char) (c : Char)
    (hX : X.all (fun x => x ≠ '\n') = true) (hc : c.isAlpha = true) :
    findBackslashAlphaNoNewline (X ++ '\\' :: c :: Y) = true := by
  induction X with
  | nil => simp [findBackslashAlphaNoNewline, hc]
  | cons x X ih =>
    simp only [List.all_cons, Bool.and_eq_true] at hX
    have hrec := ih hX.2
    have hx : x ≠ '\n' := by simpa using hX.1
    rw [List.cons_append]
    unfold findBackslashAlphaNoNewline
    rw [if_neg hx]
    by_cases hb : x = '\\'
    · rw [if_pos hb]
      simp [hrec]
    · rw [if_neg hb]
      exact hrec

/-- Claim C1, counterexample: when every conversion attempt has failed
(no MathML was produced), `ultra_mathml_recover`'s final fallback returns
the LaTeX candidate wrapped in an `<mtext>` node — not an error marker —
and the resulting markup contains a free-text node whose content matches
the escaped-command pattern, the very pattern its own corruption detector
hunts for. -/
theorem c1_counterexample :
    (ultra_final_fallback (("\\frac\x7b1\x7d\x7b2\x7d").data) [] 0).1 =
      wrap_as_mathml_from_latex (("\\frac\x7b1\x7d\x7b2\x7d").data) ∧
    has_mtext_latex (ultra_final_fallback (("\\frac\x7b1\x7d\x7b2\x7d").data) [] 0).1 = true := by
  refine ⟨rfl, by decide⟩

/-- Claim C1 (amended): the no-leakage invariant does not hold at the ULTRA
recovery boundary: whenever conversion fails (no MathML produced) and the
repaired LaTeX candidate still contains an escaped command (a backslash
followed by a letter, with no newline before it), the final fallback of
`ultra_mathml_recover` wraps that LaTeX in an `<mtext>` node, so the
returned markup contains a free-text node matching the escaped-command
pattern. (`LatexToMathML.convert`, in contrast, raises an error rather
than wrapping; see claim C6.) -/
theorem c1_failed_conversion_wraps_mtext (p q : List Char) (c : Char) (conf : ℚ)
    (h1 : c.isAlpha = true) (h2 : p.all (fun x => x ≠ '\n') = true) :
    has_mtext_latex (ultra_final_fallback (p ++ '\\' :: c :: q) [] conf).1 = true := by
  have hfb : (ultra_final_fallback (p ++ '\\' :: c :: q) [] conf).1
      = wrap_as_mathml_from_latex (p ++ '\\' :: c :: q) := rfl
  rw [hfb]
  have hwrap : wrap_as_mathml_from_latex (p ++ '\\' :: c :: q)
      = ("<math xmlns=\"http://www.w3.org/1998/Math/MathML\"><mrow>").data ++
        ('<' :: 'm' :: 't' :: 'e' :: 'x' :: 't' :: '>' ::
          (html_escape (p ++ '\\' :: c :: q) ++ ("</mtext></mrow></math>").data)) := by
    unfold wrap_as_mathml_from_latex
    rfl
  rw [hwrap]
  unfold has_mtext_latex
  rw [List.any_eq_true]
  refine ⟨'<' :: 'm' :: 't' :: 'e' :: 'x' :: 't' :: '>' ::
      (html_escape (p ++ '\\' :: c :: q) ++ ("</mtext></mrow></math>").data),
    (List.mem_tails _ _).mpr (List.suffix_append _ _), ?_⟩
  have hci : ciPrefix ("<mtext").data
      ('<' :: 'm' :: 't' :: 'e' :: 'x' :: 't' :: '>' ::
        (html_escape (p ++ '\\' :: c :: q) ++ ("</mtext></mrow></math>").data)) = true := by
    simp [ciPrefix]
  rw [if_pos hci]
  unfold mtextTailMatch
  simp only [List.drop_succ_cons, List.drop_zero]
  rw [Bool.and_eq_true]
  constructor
  · decide
  · have hdw : List.dropWhile (fun ch => decide (ch ≠ '>'))
        ('>' :: (html_escape (p ++ '\\' :: c :: q) ++ ("</mtext></mrow></math>").data))
        = '>' :: (html_escape (p ++ '\\' :: c :: q) ++ ("</mtext></mrow></math>").data) := by
      rw [List.dropWhile_cons]
      simp
    rw [hdw]
    have hesc : html_escape (p ++ '\\' :: c :: q)
        = html_escape p ++ '\\' :: c :: html_escape q := by
      rw [html_escape_append, html_escape_cons, html_escape_cons]
      rw [html_escape_char_alpha c h1]
      rfl
    rw [hesc]
    have hassoc : (html_escape p ++ '\\' :: c :: html_escape q) ++ ("</mtext></mrow></math>").data
        = html_escape p ++ '\\' :: c :: (html_escape q ++ ("</mtext></mrow></math>").data) := by
      simp
    rw [hassoc]
    exact find_bsl_in_append _ _ c (html_escape_all_ne_newline p h2) h1

/-- Witness for the amended claim C1 at the candidate `"\frac"`. -/
theorem c1_failed_conversion_wraps_mtext_witness :
    has_mtext_latex (ultra_final_fallback ([] ++ '\\' :: 'f' :: ("rac").data) [] 0).1 = true :=
  c1_failed_conversion_wraps_mtext [] (("rac").data) 'f' 0 (by decide) (by decide)


/-! ### Fixed-point theory of the letter-subscript collapse pass (C8, C9) -/

theorem pairsOf_nil : pairsOf [] = ([], []) := rfl

theorem pairsOf_cons5 (a u ob b cb : Char) (rest : List Char) :
    pairsOf (a :: u :: ob :: b :: cb :: rest) =
      if a.isAlpha ∧ u = '_' ∧ ob = '\x7b' ∧ b.isAlphanum ∧ cb = '\x7d' then
        ((a, b) :: (pairsOf rest).1, (pairsOf rest).2)
      else ([], a :: u :: ob :: b :: cb :: rest) := rfl

theorem pairsOf_head_not_alpha (a : Char) (t : List Char) (h : a.isAlpha = false) :
    pairsOf (a :: t) = ([], a :: t) := by
  rcases t with _ | ⟨u, _ | ⟨ob, _ | ⟨b, _ | ⟨cb, rest⟩⟩⟩⟩ <;>
    simp [pairsOf, h]

theorem pairsOf_second_ne_underscore (a u : Char) (t : List Char) (h : ¬ u = '_') :
    pairsOf (a :: u :: t) = ([], a :: u :: t) := by
  rcases t with _ | ⟨ob, _ | ⟨b, _ | ⟨cb, rest⟩⟩⟩ <;>
    simp [pairsOf, h]

theorem pairsOf_length : ∀ (n : Nat) (l : List Char), l.length ≤ n →
    (pairsOf l).2.length + 5 * (pairsOf l).1.length = l.length := by
  intro n
  induction n with
  | zero =>
    intro l h
    have : l = [] := List.length_eq_zero.mp (Nat.le_zero.mp h)
    subst this
    rfl
  | succ n ih =>
    intro l h
    rcases l with _ | ⟨a, _ | ⟨u, _ | ⟨ob, _ | ⟨b, _ | ⟨cb, rest⟩⟩⟩⟩⟩
    · rfl
    · rfl
    · rfl
    · rfl
    · rfl
    · rw [pairsOf_cons5]
      split_ifs with hc
      · have hr : rest.length ≤ n := by
          simp only [List.length_cons] at h
          omega
        have := ih rest hr
        simp only [List.length_cons]
        omega
      · simp

theorem pairsOf_rest_le (l : List Char) : (pairsOf l).2.length ≤ l.length := by
  have := pairsOf_length l.length l le_rfl
  omega

theorem collapseStepGo_congr : ∀ (n f g : Nat) (l : List Char), l.length ≤ n →
    l.length ≤ f → l.length ≤ g → collapseStepGo f l = collapseStepGo g l := by
  intro n
  induction n with
  | zero =>
    intro f g l h _ _
    have : l = [] := List.length_eq_zero.mp (Nat.le_zero.mp h)
    subst this
    cases f <;> cases g <;> rfl
  | succ n ih =>
    intro f g l h hf hg
    rcases l with _ | ⟨c, t⟩
    · cases f <;> cases g <;> rfl
    · rcases f with _ | f
      · simp at hf
      · rcases g with _ | g
        · simp at hg
        · simp only [collapseStepGo]
          by_cases hp : (pairsOf (c :: t)).1.length ≥ 2
          · rw [if_pos hp, if_pos hp]
            have hlen := pairsOf_length (c :: t).length (c :: t) le_rfl
            have hr : (pairsOf (c :: t)).2.length ≤ n := by
              simp only [List.length_cons] at h hlen ⊢
              omega
            have hrf : (pairsOf (c :: t)).2.length ≤ f := by
              simp only [List.length_cons] at hf hlen
              omega
            have hrg : (pairsOf (c :: t)).2.length ≤ g := by
              simp only [List.length_cons] at hg hlen
              omega
            rw [ih f g _ hr hrf hrg]
          · rw [if_neg hp, if_neg hp]
            have ht : t.length ≤ n := by simp only [List.length_cons] at h; omega
            have htf : t.length ≤ f := by simp only [List.length_cons] at hf; omega
            have htg : t.length ≤ g := by simp only [List.length_cons] at hg; omega
            rw [ih f g t ht htf htg]

theorem collapseStep_cons (c : Char) (t : List Char) :
    collapseStep (c :: t) =
      if (pairsOf (c :: t)).1.length ≥ 2 then
        mergeSimple (pairsOf (c :: t)).1 ++ collapseStep (pairsOf (c :: t)).2
      else c :: collapseStep t := by
  show collapseStepGo (c :: t).length (c :: t) = _
  simp only [List.length_cons, collapseStepGo]
  by_cases hp : (pairsOf (c :: t)).1.length ≥ 2
  · rw [if_pos hp, if_pos hp]
    congr 1
    have hlen := pairsOf_length (c :: t).length (c :: t) le_rfl
    apply collapseStepGo_congr (pairsOf (c :: t)).2.length
    · exact le_rfl
    · simp only [List.length_cons] at hlen ⊢
      omega
    · exact le_rfl
  · rw [if_neg hp, if_neg hp]
    rfl

theorem collapseStep_nil : collapseStep [] = [] := rfl

theorem mergeSimple_head (ps : List (Char × Char)) (hps : 2 ≤ ps.length) :
    ∃ u, mergeSimple ps = '\\' :: u := by
  unfold mergeSimple
  rw [if_pos]
  · exact ⟨_, rfl⟩
  · simp only [List.length_append, List.length_map]
    omega

theorem collapseStep_head (t : List Char) (x : Char) (v : List Char)
    (h : collapseStep t = x :: v) :
    x = '\\' ∨ ∃ t', t = x :: t' ∧ v = collapseStep t' := by
  rcases t with _ | ⟨c, t'⟩
  · simp [collapseStep, collapseStepGo] at h
  · rw [collapseStep_cons] at h
    split_ifs at h with hp
    · left
      obtain ⟨u, hu⟩ := mergeSimple_head (pairsOf (c :: t')).1 hp
      rw [hu, List.cons_append] at h
      injection h with h1 _
      exact h1.symm
    · right
      injection h with h1 h2
      exact ⟨t', by rw [h1], h2.symm⟩

theorem pairsOf_pos_shape (l : List Char) (h : (pairsOf l).1 ≠ []) :
    ∃ a b rest, l = a :: '_' :: '\x7b' :: b :: '\x7d' :: rest ∧
      a.isAlpha = true ∧ b.isAlphanum = true ∧
      (pairsOf l).1 = (a, b) :: (pairsOf rest).1 ∧ (pairsOf l).2 = (pairsOf rest).2 := by
  rcases l with _ | ⟨a, _ | ⟨u, _ | ⟨ob, _ | ⟨b, _ | ⟨cb, rest⟩⟩⟩⟩⟩
  · simp [pairsOf] at h
  · simp [pairsOf] at h
  · simp [pairsOf] at h
  · simp [pairsOf] at h
  · simp [pairsOf] at h
  · rw [pairsOf_cons5] at h ⊢
    split_ifs at h ⊢ with hc
    · obtain ⟨ha, hu, hob, hb, hcb⟩ := hc
      subst hu; subst hob; subst hcb
      exact ⟨a, b, rest, rfl, ha, hb, rfl, rfl⟩
    · simp at h

theorem pairsOf_collapseStep_of_zero (l : List Char) (h : (pairsOf l).1 = []) :
    (pairsOf (collapseStep l)).1 = [] := by
  rcases l with _ | ⟨c, t⟩
  · rfl
  · have hp : ¬ (pairsOf (c :: t)).1.length ≥ 2 := by rw [h]; simp
    rw [collapseStep_cons, if_neg hp]
    by_contra hne
    obtain ⟨a, b, rest, hshape, ha, hb, _, _⟩ := pairsOf_pos_shape _ hne
    injection hshape with h1 h2
    subst h1
    rcases collapseStep_head t '_' _ h2 with h' | ⟨t1, ht1, hv1⟩
    · exact absurd h' (by decide)
    rcases collapseStep_head t1 '\x7b' _ hv1.symm with h' | ⟨t2, ht2, hv2⟩
    · exact absurd h' (by decide)
    rcases collapseStep_head t2 b _ hv2.symm with h' | ⟨t3, ht3, hv3⟩
    · rw [h'] at hb
      exact absurd hb (by decide)
    rcases collapseStep_head t3 '\x7d' _ hv3.symm with h' | ⟨t4, ht4, _⟩
    · exact absurd h' (by decide)
    have hts : t = '_' :: '\x7b' :: b :: '\x7d' :: t4 := by
      rw [ht1, ht2, ht3, ht4]
    rw [hts] at h
    rw [pairsOf_cons5, if_pos ⟨ha, rfl, rfl, hb, rfl⟩] at h
    simp at h

theorem pairsOf_collapseStep_le_one (l : List Char) :
    (pairsOf (collapseStep l)).1.length ≤ 1 := by
  rcases l with _ | ⟨c, t⟩
  · simp [collapseStep_nil, pairsOf_nil]
  · by_cases hp : (pairsOf (c :: t)).1.length ≥ 2
    · rw [collapseStep_cons, if_pos hp]
      obtain ⟨u, hu⟩ := mergeSimple_head (pairsOf (c :: t)).1 hp
      rw [hu, List.cons_append, pairsOf_head_not_alpha _ _ (by decide)]
      simp
    · by_cases h0 : (pairsOf (c :: t)).1 = []
      · rw [pairsOf_collapseStep_of_zero (c :: t) h0]
        simp
      · -- exactly one pair at the head
        obtain ⟨a, b, rest, hshape, ha, hb, hfst, _⟩ := pairsOf_pos_shape _ h0
        injection hshape with h1 h2
        have hrest0 : (pairsOf rest).1 = [] := by
          rw [hfst] at hp
          simp only [List.length_cons, ge_iff_le, not_le] at hp
          have hz : (pairsOf rest).1.length = 0 := by omega
          exact List.length_eq_zero.mp hz
        rw [collapseStep_cons, if_neg hp, h2]
        have s1 : collapseStep ('_' :: '\x7b' :: b :: '\x7d' :: rest)
            = '_' :: collapseStep ('\x7b' :: b :: '\x7d' :: rest) := by
          rw [collapseStep_cons,
            pairsOf_head_not_alpha _ _ (by decide)]
          simp
        have s2 : collapseStep ('\x7b' :: b :: '\x7d' :: rest)
            = '\x7b' :: collapseStep (b :: '\x7d' :: rest) := by
          rw [collapseStep_cons,
            pairsOf_head_not_alpha _ _ (by decide)]
          simp
        have s3 : collapseStep (b :: '\x7d' :: rest)
            = b :: collapseStep ('\x7d' :: rest) := by
          rw [collapseStep_cons,
            pairsOf_second_ne_underscore _ _ _ (by decide)]
          simp
        have s4 : collapseStep ('\x7d' :: rest)
            = '\x7d' :: collapseStep rest := by
          rw [collapseStep_cons,
            pairsOf_head_not_alpha _ _ (by decide)]
          simp
        rw [s1, s2, s3, s4, h1]
        rw [pairsOf_cons5, if_pos ⟨ha, rfl, rfl, hb, rfl⟩]
        rw [pairsOf_collapseStep_of_zero rest hrest0]
        simp


theorem isAlpha_ne_underscore (a : Char) (h : a.isAlpha = true) : a ≠ '_' := by
  intro he; subst he; simp at h

theorem isAlphanum_ne_underscore (a : Char) (h : a.isAlphanum = true) : a ≠ '_' := by
  intro he; subst he; simp [Char.isAlphanum] at h

theorem pairsOf_elems : ∀ (n : Nat) (l : List Char), l.length ≤ n →
    ∀ p ∈ (pairsOf l).1, p.1.isAlpha = true ∧ p.2.isAlphanum = true := by
  intro n
  induction n with
  | zero =>
    intro l h
    have : l = [] := List.length_eq_zero.mp (Nat.le_zero.mp h)
    subst this
    simp [pairsOf_nil]
  | succ n ih =>
    intro l h
    rcases l with _ | ⟨a, _ | ⟨u, _ | ⟨ob, _ | ⟨b, _ | ⟨cb, rest⟩⟩⟩⟩⟩
    · simp [pairsOf]
    · simp [pairsOf]
    · simp [pairsOf]
    · simp [pairsOf]
    · simp [pairsOf]
    · rw [pairsOf_cons5]
      split_ifs with hc
      · intro p hp
        rcases List.mem_cons.mp hp with h' | h'
        · subst h'
          exact ⟨hc.1, hc.2.2.2.1⟩
        · have hr : rest.length ≤ n := by
            simp only [List.length_cons] at h
            omega
          exact ih rest hr p h'
      · simp

theorem noRunP_nil : noRunP [] := by
  intro s hs
  rw [List.suffix_nil.mp hs]
  simp [pairsOf_nil]

theorem noRunP_append_no_underscore (Y : List Char)
    (hh : ∀ y ys, Y = y :: ys → y ≠ '_') (hY : noRunP Y) :
    ∀ zs : List Char, (∀ z ∈ zs, z ≠ '_') → noRunP (zs ++ Y) := by
  intro zs
  induction zs with
  | nil =>
    intro _
    simpa using hY
  | cons z zs ih =>
    intro hz s hs
    rw [List.cons_append] at hs
    rcases List.suffix_cons_iff.mp hs with h | h
    · subst h
      rcases zs with _ | ⟨z2, zs'⟩
      · rw [List.nil_append]
        rcases hY2 : Y with _ | ⟨y, ys⟩
        · simp [pairsOf]
        · rw [pairsOf_second_ne_underscore _ _ _ (hh y ys hY2)]
          simp
      · have h2 : z2 ≠ '_' := hz z2 (by simp)
        rw [List.cons_append]
        rw [pairsOf_second_ne_underscore _ _ _ h2]
        simp
    · exact ih (fun w hw => hz w (List.mem_cons_of_mem _ hw)) s h

theorem noRunP_collapseStep : ∀ (n : Nat) (l : List Char), l.length ≤ n →
    noRunP (collapseStep l) := by
  intro n
  induction n with
  | zero =>
    intro l h
    have : l = [] := List.length_eq_zero.mp (Nat.le_zero.mp h)
    subst this
    rw [collapseStep_nil]
    exact noRunP_nil
  | succ n ih =>
    intro l h
    rcases l with _ | ⟨c, t⟩
    · rw [collapseStep_nil]
      exact noRunP_nil
    · by_cases hp : (pairsOf (c :: t)).1.length ≥ 2
      · rw [collapseStep_cons, if_pos hp]
        have hlen := pairsOf_length (c :: t).length (c :: t) le_rfl
        have hrb : (pairsOf (c :: t)).2.length ≤ n := by
          simp only [List.length_cons] at h hlen ⊢
          omega
        have hrest := ih _ hrb
        have hY : noRunP ('\x7d' :: collapseStep (pairsOf (c :: t)).2) := by
          intro s hs
          rcases List.suffix_cons_iff.mp hs with h' | h'
          · subst h'
            rw [pairsOf_head_not_alpha _ _ (by decide)]
            simp
          · exact hrest s h'
        have hms : mergeSimple (pairsOf (c :: t)).1 ++ collapseStep (pairsOf (c :: t)).2
            = (("\\mathrm\x7b").data ++
                ((pairsOf (c :: t)).1.map Prod.fst ++ (pairsOf (c :: t)).1.map Prod.snd)) ++
              ('\x7d' :: collapseStep (pairsOf (c :: t)).2) := by
          unfold mergeSimple
          rw [if_pos]
          · simp
          · simp only [List.length_append, List.length_map]
            omega
        rw [hms]
        apply noRunP_append_no_underscore _ (by intro y ys hy; injection hy with hy1 _; subst hy1; decide) hY
        intro z hz
        rcases List.mem_append.mp hz with h' | h'
        · have hlit : ∀ z ∈ ("\\mathrm\x7b").data, z ≠ '_' := by decide
          exact hlit z h'
        · rcases List.mem_append.mp h' with h'' | h''
          · obtain ⟨p, hp', he⟩ := List.mem_map.mp h''
            have := pairsOf_elems (c :: t).length (c :: t) le_rfl p hp'
            subst he
            exact isAlpha_ne_underscore _ this.1
          · obtain ⟨p, hp', he⟩ := List.mem_map.mp h''
            have := pairsOf_elems (c :: t).length (c :: t) le_rfl p hp'
            subst he
            exact isAlphanum_ne_underscore _ this.2
      · rw [collapseStep_cons, if_neg hp]
        intro s hs
        rcases List.suffix_cons_iff.mp hs with h' | h'
        · subst h'
          have hle := pairsOf_collapseStep_le_one (c :: t)
          rwa [collapseStep_cons, if_neg hp] at hle
        · have ht : t.length ≤ n := by simp only [List.length_cons] at h; omega
          exact ih t ht s h'

theorem collapseStep_of_noRunP : ∀ (n : Nat) (l : List Char), l.length ≤ n →
    noRunP l → collapseStep l = l := by
  intro n
  induction n with
  | zero =>
    intro l h _
    have : l = [] := List.length_eq_zero.mp (Nat.le_zero.mp h)
    subst this
    rfl
  | succ n ih =>
    intro l h hnr
    rcases l with _ | ⟨c, t⟩
    · rfl
    · have hp : ¬ (pairsOf (c :: t)).1.length ≥ 2 := by
        have := hnr (c :: t) (List.suffix_refl _)
        omega
      rw [collapseStep_cons, if_neg hp]
      have ht : t.length ≤ n := by simp only [List.length_cons] at h; omega
      rw [ih t ht (fun s hs => hnr s (hs.trans (List.suffix_cons c t)))]

theorem noPairRun_iff (l : List Char) : noPairRun l = true ↔ noRunP l := by
  unfold noPairRun noRunP
  rw [List.all_eq_true]
  constructor
  · intro h s hs
    have := h s ((List.mem_tails _ _).mpr hs)
    simpa [Nat.lt_succ_iff] using this
  · intro h s hs
    have := h s ((List.mem_tails _ _).mp hs)
    simpa [Nat.lt_succ_iff] using this

/-- C8: the token reconstructor's fixed-point rewriting for letter-subscript
runs (`_collapse_letter_subscripts`, mathml_recovery_pro.py lines 280-302)
iterates its substitution pass with a ceiling of 3 passes (within the claimed
bound of 5) and exits early on convergence; the loop always terminates, and in
fact a single substitution pass already reaches the fixed point, so the
ceiling is never hit without convergence: for every input the loop result
equals one `collapseStep` pass and that pass is idempotent. -/
theorem c8_collapse_loop_converges (s : List Char) :
    collapse_letter_subscripts s = collapseStep s ∧
      collapseStep (collapseStep s) = collapseStep s := by
  have hidem : collapseStep (collapseStep s) = collapseStep s :=
    collapseStep_of_noRunP (collapseStep s).length _ le_rfl
      (noRunP_collapseStep s.length s le_rfl)
  refine ⟨?_, hidem⟩
  unfold collapse_letter_subscripts
  by_cases hs : s = []
  · rw [if_pos hs, hs, collapseStep_nil]
  · rw [if_neg hs]
    unfold collapse_loop
    by_cases h1 : collapseStep s = s
    · rw [if_pos h1, h1]
    · rw [if_neg h1]
      unfold collapse_loop
      rw [if_pos hidem]

/-- C9 counterexample: a double letter-subscript run is not left untouched by
`_collapse_letter_subscripts` — the two-pair input `a_{b}c_{d}` is collapsed
to `\mathrm{acbd}`, because the substitution scanner fires on any run of two
or more pairs. -/
theorem c9_counterexample :
    collapse_letter_subscripts (("a_\x7bb\x7dc_\x7bd\x7d").data)
        = ("\\mathrm\x7bacbd\x7d").data ∧
      collapse_letter_subscripts (("a_\x7bb\x7dc_\x7bd\x7d").data)
        ≠ ("a_\x7bb\x7dc_\x7bd\x7d").data := by
  refine ⟨by decide, by decide⟩

/-- C9 (amended): token reconstruction leaves lone letter-subscript pairs
untouched — every input with no run of two or more adjacent
`letter_{alnum}` pairs, in particular any string whose subscripted letters
are all isolated, is a fixed point of `_collapse_letter_subscripts`; no
single pair is ever collapsed, rewritten or promoted to a command. -/
theorem c9_lone_pairs_untouched (s : List Char) (h : noPairRun s = true) :
    collapse_letter_subscripts s = s := by
  have hstep : collapseStep s = s :=
    collapseStep_of_noRunP s.length s le_rfl ((noPairRun_iff s).mp h)
  unfold collapse_letter_subscripts
  by_cases hs : s = []
  · rw [if_pos hs]
  · rw [if_neg hs]
    unfold collapse_loop
    rw [if_pos hstep]

/-- Witness for amended C9: the lone subscripted letter `x_{a}` passes the
no-run test and is returned unchanged. -/
theorem c9_lone_pairs_untouched_witness :
    noPairRun (("x_\x7ba\x7d").data) = true ∧
      collapse_letter_subscripts (("x_\x7ba\x7d").data) = ("x_\x7ba\x7d").data :=
  ⟨by decide, c9_lone_pairs_untouched (("x_\x7ba\x7d").data) (by decide)⟩

/-! ### Idempotence theory of the reconstructor (C3) -/

theorem stripLeft_head (l : List Char) (c : Char) (t : List Char)
    (h : stripLeft l = c :: t) : pyWs c = false := by
  induction l with
  | nil => simp [stripLeft] at h
  | cons a l ih =>
    rw [stripLeft, List.dropWhile_cons] at h
    by_cases ha : pyWs a
    · rw [if_pos (by simpa using ha)] at h
      exact ih (by rwa [stripLeft])
    · rw [if_neg (by simpa using ha)] at h
      injection h with h1 _
      subst h1
      simpa using ha

theorem stripLeft_eq_self (l : List Char)
    (h : ∀ c, l.head? = some c → pyWs c = false) : stripLeft l = l := by
  cases l with
  | nil => rfl
  | cons a t =>
    rw [stripLeft, List.dropWhile_cons, if_neg]
    simp [h a rfl]

theorem strip_prefix_stripLeft (l : List Char) : strip l <+: stripLeft l := by
  have h : stripLeft (stripLeft l).reverse <:+ (stripLeft l).reverse :=
    List.dropWhile_suffix fun c => pyWs c
  have h2 := List.reverse_prefix.mpr h
  rw [List.reverse_reverse] at h2
  rw [strip]
  exact h2

theorem strip_within (l : List Char) : strip l <:+: l :=
  (strip_prefix_stripLeft l).isInfix.trans (List.dropWhile_suffix fun c => pyWs c).isInfix

theorem strip_head (l : List Char) (c : Char) (t : List Char)
    (h : strip l = c :: t) : pyWs c = false := by
  obtain ⟨r, hr⟩ := strip_prefix_stripLeft l
  rw [h] at hr
  exact stripLeft_head l c (t ++ r) (by rw [← hr]; rfl)

theorem strip_getLast (l : List Char) (c : Char)
    (h : (strip l).getLast? = some c) : pyWs c = false := by
  rw [strip] at h
  rw [List.getLast?_reverse] at h
  rcases he : stripLeft (stripLeft l).reverse with _ | ⟨a, t⟩
  · rw [he] at h; simp at h
  · rw [he] at h
    injection h with h1
    subst h1
    exact stripLeft_head _ _ _ he

theorem strip_eq_self (l : List Char)
    (hh : ∀ c, l.head? = some c → pyWs c = false)
    (hl : ∀ c, l.getLast? = some c → pyWs c = false) : strip l = l := by
  rw [strip, stripLeft_eq_self l hh, stripLeft_eq_self l.reverse
      (fun c hc => hl c (by rwa [List.head?_reverse] at hc)), List.reverse_reverse]

theorem strip_idem (l : List Char) : strip (strip l) = strip l := by
  apply strip_eq_self
  · intro c hc
    rcases he : strip l with _ | ⟨a, t⟩
    · rw [he] at hc; simp at hc
    · rw [he] at hc
      simp only [List.head?_cons] at hc
      injection hc with h1
      subst h1
      exact strip_head l _ _ he
  · intro c hc
    exact strip_getLast l c hc

theorem noPairAdj_tail (f : Char → Char → Bool) (a : Char) (t : List Char)
    (h : noPairAdj f (a :: t) = true) : noPairAdj f t = true := by
  cases t with
  | nil => rfl
  | cons b t' =>
    rw [noPairAdj, Bool.and_eq_true] at h
    exact h.2

theorem noPairAdj_suffix (f : Char → Char → Bool) (l s : List Char)
    (hs : s <:+ l) (h : noPairAdj f l = true) : noPairAdj f s = true := by
  induction l with
  | nil => rw [List.suffix_nil.mp hs]; rfl
  | cons a t ih =>
    rcases List.suffix_cons_iff.mp hs with h' | h'
    · rwa [h']
    · exact ih h' (noPairAdj_tail f a t h)

theorem noPairAdj_front (f : Char → Char → Bool) :
    ∀ (p l : List Char), p <+: l → noPairAdj f l = true → noPairAdj f p = true := by
  intro p
  induction p with
  | nil => intro l _ _; rfl
  | cons a p' ih =>
    intro l hp h
    cases l with
    | nil => exact absurd (List.IsPrefix.length_le hp) (by simp)
    | cons b l' =>
      rw [List.cons_prefix_cons] at hp
      obtain ⟨hab, hp'⟩ := hp
      subst hab
      cases p' with
      | nil => rfl
      | cons c p'' =>
        cases l' with
        | nil => exact absurd (List.IsPrefix.length_le hp') (by simp)
        | cons d l'' =>
          have hcd : c = d := (List.cons_prefix_cons.mp hp').1
          subst hcd
          rw [noPairAdj, Bool.and_eq_true] at h ⊢
          exact ⟨h.1, ih (c :: l'') hp' h.2⟩

theorem noPairAdj_within (f : Char → Char → Bool) (l m : List Char)
    (hm : m <:+: l) (h : noPairAdj f l = true) : noPairAdj f m = true := by
  obtain ⟨t, s, hts⟩ := hm
  have hsuf : m ++ s <:+ l := ⟨t, by rw [← hts, List.append_assoc]⟩
  exact noPairAdj_front f m (m ++ s) (List.prefix_append m s)
    (noPairAdj_suffix f l (m ++ s) hsuf h)

theorem noPairAdj_append (f : Char → Char → Bool) :
    ∀ (l r : List Char), noPairAdj f l = true → noPairAdj f r = true →
      (∀ a b, l.getLast? = some a → r.head? = some b → f a b = false) →
      noPairAdj f (l ++ r) = true := by
  intro l
  induction l with
  | nil => intro r _ hr _; exact hr
  | cons a l' ih =>
    intro r hl hr hj
    cases l' with
    | nil =>
      cases r with
      | nil => rfl
      | cons b r' =>
        rw [List.singleton_append, noPairAdj, Bool.and_eq_true]
        exact ⟨by simp [hj a b rfl rfl], hr⟩
    | cons c l'' =>
      rw [List.cons_append, List.cons_append, noPairAdj, Bool.and_eq_true]
      rw [noPairAdj, Bool.and_eq_true] at hl
      refine ⟨hl.1, ?_⟩
      rw [← List.cons_append]
      exact ih r hl.2 hr (fun x y hx hy => hj x y (by rwa [List.getLast?_cons_cons]) hy)

theorem noPairAdj_not_fst (f : Char → Char → Bool) (x : List Char)
    (h : ∀ a b, a ∈ x → f a b = false) : noPairAdj f x = true := by
  induction x with
  | nil => rfl
  | cons a t ih =>
    cases t with
    | nil => rfl
    | cons b t' =>
      rw [noPairAdj, Bool.and_eq_true]
      exact ⟨by simp [h a b (by simp)],
        ih (fun p q hp => h p q (List.mem_cons_of_mem _ hp))⟩

theorem dollarStrip_id (l : List Char) (h : ∀ c, l.head? = some c → c ≠ '$') :
    dollarStrip l = l := by
  rw [dollarStrip, if_neg]
  intro hc
  rcases l with _ | ⟨a, t⟩
  · simp at hc
  · exact h a rfl (by simpa using hc.1)

theorem garbage_ge_128 : ∀ g ∈ garbageChars, 128 ≤ g.toNat := by decide

theorem remove_garbage_id (l : List Char) (h : ∀ c ∈ l, c.toNat < 128) :
    remove_garbage l = l := by
  apply List.filter_eq_self.mpr
  intro a ha
  simp only [decide_eq_true_eq]
  intro hc
  have hm : a ∈ garbageChars := by simpa using hc
  have := garbage_ge_128 a hm
  have := h a ha
  omega

theorem map_wsToSpace_id (l : List Char) (h : ∀ c ∈ l, pyWs c = true → c = ' ') :
    l.map wsToSpace = l := by
  induction l with
  | nil => rfl
  | cons a t ih =>
    rw [List.map_cons, ih (fun c hc => h c (List.mem_cons_of_mem _ hc))]
    congr 1
    rw [wsToSpace]
    by_cases ha : pyWs a = true
    · rw [if_pos (by simpa using ha), h a (by simp) ha]
    · rw [if_neg (by simpa using ha)]

theorem dedupSpaces_id (l : List Char)
    (h : noPairAdj (fun a b => a = ' ' && b = ' ') l = true) : dedupSpaces l = l := by
  induction l with
  | nil => rfl
  | cons a t ih =>
    cases t with
    | nil => rfl
    | cons b t' =>
      rw [dedupSpaces, if_neg, ih (noPairAdj_tail _ _ _ h)]
      rw [noPairAdj, Bool.and_eq_true] at h
      have := h.1
      simp only [Bool.not_eq_true', Bool.and_eq_false_iff, decide_eq_false_iff_not] at this
      rcases this with h' | h' <;> simp [h']

theorem collapse_underscores_id (l : List Char)
    (h : noPairAdj (fun a b => a = '_' && b = '_') l = true) :
    collapse_underscores l = l := by
  induction l with
  | nil => rfl
  | cons a t ih =>
    cases t with
    | nil => rfl
    | cons b t' =>
      rw [collapse_underscores, if_neg, ih (noPairAdj_tail _ _ _ h)]
      rw [noPairAdj, Bool.and_eq_true] at h
      have := h.1
      simp only [Bool.not_eq_true', Bool.and_eq_false_iff, decide_eq_false_iff_not] at this
      rcases this with h' | h' <;> simp [h']

theorem collapse_ws_id (l : List Char)
    (hws : ∀ c ∈ l, pyWs c = true → c = ' ')
    (hsp : noPairAdj (fun a b => a = ' ' && b = ' ') l = true)
    (hstrip : strip l = l) : collapse_ws l = l := by
  rw [collapse_ws, map_wsToSpace_id l hws, dedupSpaces_id l hsp, hstrip]

theorem noScriptP_suffix (l s : List Char) (hs : s <:+ l) (h : noScriptP l) :
    noScriptP s := fun u hu => h u (hu.trans hs)

theorem sb_go_id : ∀ (n : Nat) (l : List Char), l.length ≤ n → noScriptP l →
    subscript_brace_go n l = l := by
  intro n
  induction n with
  | zero =>
    intro l h _
    rw [List.length_eq_zero.mp (Nat.le_zero.mp h)]
    rfl
  | succ n ih =>
    intro l h hns
    cases l with
    | nil => rfl
    | cons c t =>
      rw [subscript_brace_go, hns (c :: t) (List.suffix_refl _)]
      rw [ih t (by simpa using Nat.lt_succ_iff.mp (Nat.lt_of_lt_of_le (by simp) h))
        (noScriptP_suffix (c :: t) t (List.suffix_cons c t) hns)]

theorem subscript_brace_id (l : List Char) (h : noScriptP l) : subscript_brace l = l :=
  sb_go_id l.length l le_rfl h

theorem drop_underscore_id (l : List Char)
    (h : noPairAdj (fun a b => a = '_' && scriptPunct b) l = true) :
    drop_underscore_before_punct l = l := by
  induction l with
  | nil => rfl
  | cons a t ih =>
    cases t with
    | nil => rfl
    | cons b t' =>
      rw [drop_underscore_before_punct, if_neg, ih (noPairAdj_tail _ _ _ h)]
      rw [noPairAdj, Bool.and_eq_true] at h
      have := h.1
      simp only [Bool.not_eq_true', Bool.and_eq_false_iff, decide_eq_false_iff_not] at this
      rcases this with h' | h'
      · simp [h']
      · intro hc
        exact absurd hc.2 (by simpa using h')

theorem drop_caret_id (l : List Char)
    (h : noPairAdj (fun a b => a = '^' && scriptPunct b) l = true) :
    drop_caret_before_punct l = l := by
  induction l with
  | nil => rfl
  | cons a t ih =>
    cases t with
    | nil => rfl
    | cons b t' =>
      rw [drop_caret_before_punct, if_neg, ih (noPairAdj_tail _ _ _ h)]
      rw [noPairAdj, Bool.and_eq_true] at h
      have := h.1
      simp only [Bool.not_eq_true', Bool.and_eq_false_iff, decide_eq_false_iff_not] at this
      rcases this with h' | h'
      · simp [h']
      · intro hc
        exact absurd hc.2 (by simpa using h')

theorem fix_braces_id (l : List Char)
    (h : countChar '\x7b' l = countChar '\x7d' l) : fix_braces l = l := by
  simp only [fix_braces]
  rw [if_neg (by omega), if_neg (by omega)]

theorem head_mem_of_head? (l : List Char) (c : Char) (h : l.head? = some c) : c ∈ l := by
  cases l with
  | nil => simp at h
  | cons a t =>
    simp only [List.head?_cons] at h
    injection h with h1
    subst h1
    simp

theorem reconstruct_canonical_fixed (y : List Char)
    (hstrip : strip y = y)
    (hdollar : '$' ∉ y)
    (hascii : ∀ c ∈ y, c.toNat < 128)
    (hws : ∀ c ∈ y, pyWs c = true → c = ' ')
    (hsp : noPairAdj (fun a b => a = ' ' && b = ' ') y = true)
    (hup : noPairAdj (fun a b => a = '_' && b = '_') y = true)
    (hscript : noScriptP y)
    (hupn : noPairAdj (fun a b => a = '_' && scriptPunct b) y = true)
    (hcaret : '^' ∉ y)
    (hbal : countChar '\x7b' y = countChar '\x7d' y) :
    reconstruct y = y := by
  have hdc : noPairAdj (fun a b => a = '^' && scriptPunct b) y = true := by
    apply noPairAdj_not_fst
    intro a b ha
    have : a ≠ '^' := fun he => hcaret (he ▸ ha)
    simp [this]
  rw [reconstruct]
  by_cases hy : strip y = []
  · rw [if_pos hy]
    rw [hstrip] at hy
    exact hy.symm
  · rw [if_neg hy, hstrip,
      dollarStrip_id y (fun c hc he => hdollar (he ▸ head_mem_of_head? y c hc))]
    rw [recon_core]
    rw [show normalize_unicode y = y from rfl]
    rw [remove_garbage_id y hascii]
    rw [collapse_ws_id y hws hsp hstrip]
    rw [fix_script_noise]
    rw [collapse_underscores_id y hup]
    rw [subscript_brace_id y hscript]
    rw [drop_underscore_id y hupn]
    rw [drop_caret_id y hdc]
    rw [fix_braces_id y hbal]
    exact hstrip

theorem pyWs_not_alnum (c : Char) (h : pyWs c = true) : c.isAlphanum = false := by
  rw [pyWs] at h
  simp only [decide_eq_true_eq, Bool.or_eq_true] at h
  rcases h with rfl | rfl | rfl | rfl | rfl | rfl <;> decide

theorem pyWs_not_brace (c : Char) (h : pyWs c = true) :
    c ≠ '\x7b' ∧ c ≠ '\x7d' ∧ c ≠ '_' ∧ c ≠ '$' ∧ c ≠ '^' := by
  rw [pyWs] at h
  simp only [decide_eq_true_eq, Bool.or_eq_true] at h
  rcases h with rfl | rfl | rfl | rfl | rfl | rfl <;>
    exact ⟨by decide, by decide, by decide, by decide, by decide⟩

theorem scriptPunct_props (p : Char) (h : scriptPunct p = true) :
    p ≠ '_' ∧ p.isAlphanum = false ∧ pyWs p = false ∧ p ≠ ' ' ∧ p ≠ '^' := by
  rw [scriptPunct] at h
  simp only [decide_eq_true_eq, Bool.or_eq_true] at h
  rcases h with rfl | rfl | rfl <;>
    exact ⟨by decide, by decide, by decide, by decide, by decide⟩

theorem tsm_single (c : Char) : tryScriptMatch [c] = none := rfl

theorem tsm_nil : tryScriptMatch [] = none := rfl

theorem tsm_head_not_alnum (c : Char) (t : List Char) (h : c.isAlphanum = false) :
    tryScriptMatch (c :: t) = none := by
  cases t with
  | nil => rfl
  | cons u rest =>
    rw [tryScriptMatch, if_neg]
    intro hc
    rw [hc.1] at h
    cases h

theorem tsm_second_not_underscore (c u : Char) (t : List Char) (h : u ≠ '_') :
    tryScriptMatch (c :: u :: t) = none := by
  rw [tryScriptMatch, if_neg]
  intro hc
  exact h hc.2

theorem tsm_after_ws (a : Char) (w : List Char)
    (h : ∀ e, (w.dropWhile (fun c => pyWs c)).head? = some e → e.isAlphanum = false) :
    tryScriptMatch (a :: '_' :: w) = none := by
  rw [tryScriptMatch]
  split_ifs with hc
  · rcases hdw : w.dropWhile (fun c => pyWs c) with _ | ⟨b, r⟩
    · rfl
    · show (if b.isAlphanum = true then some ([a, '_', '\x7b', b, '\x7d'], r) else none) = none
      rw [if_neg]
      rw [h b (by rw [hdw]; rfl)]
      simp
  · rfl

theorem tsm_none_inv (a : Char) (w : List Char) (ha : a.isAlphanum = true)
    (h : tryScriptMatch (a :: '_' :: w) = none) :
    ∀ e, (w.dropWhile (fun c => pyWs c)).head? = some e → e.isAlphanum = false := by
  intro e he
  rcases hdw : w.dropWhile (fun c => pyWs c) with _ | ⟨b, r⟩
  · rw [hdw] at he; simp at he
  · rw [hdw] at he
    simp only [List.head?_cons] at he
    injection he with h1
    subst h1
    rw [tryScriptMatch, if_pos ⟨ha, rfl⟩, hdw] at h
    have h2 : (if b.isAlphanum = true then some ([a, '_', '\x7b', b, '\x7d'], r)
        else (none : Option (List Char × List Char))) = none := h
    by_contra hb
    rw [if_pos (by simpa using hb)] at h2
    cases h2

theorem tsm_some_shape (l : List Char) (rep rest : List Char)
    (h : tryScriptMatch l = some (rep, rest)) :
    ∃ a b m, l = a :: '_' :: m ∧ rep = [a, '_', '\x7b', b, '\x7d'] ∧
      a.isAlphanum = true ∧ b.isAlphanum = true ∧
      m.dropWhile (fun c => pyWs c) = b :: rest := by
  match l with
  | [] => cases h
  | [c] => cases h
  | a :: u :: m =>
    rw [tryScriptMatch] at h
    split_ifs at h with hc
    · rcases hdw : m.dropWhile (fun c => pyWs c) with _ | ⟨b, r⟩
      · rw [hdw] at h
        cases h
      · rw [hdw] at h
        have h2 : (if b.isAlphanum = true then some ([a, '_', '\x7b', b, '\x7d'], r)
            else (none : Option (List Char × List Char))) = some (rep, rest) := h
        split_ifs at h2 with hb
        · injection h2 with h1
          injection h1 with hrep hrest
          exact ⟨a, b, m, by rw [hc.2], hrep.symm, hc.1, hb, by rw [hdw, hrest]⟩

theorem sb_go_head : ∀ (n : Nat) (l : List Char),
    (subscript_brace_go n l).head? = l.head? := by
  intro n
  cases n with
  | zero => intro l; rfl
  | succ n =>
    intro l
    cases l with
    | nil => rfl
    | cons c t =>
      rw [subscript_brace_go]
      rcases hm : tryScriptMatch (c :: t) with _ | ⟨rep, rest⟩
      · rfl
      · obtain ⟨a, b, m, hl, hrep, _, _, _⟩ := tsm_some_shape _ _ _ hm
        injection hl with h1 _
        subst h1
        rw [hrep]
        rfl

theorem tsm_rest_len (l rep rest : List Char) (h : tryScriptMatch l = some (rep, rest)) :
    rest.length + 3 ≤ l.length := by
  obtain ⟨a, b, m, hl, _, _, _, hdw⟩ := tsm_some_shape l rep rest h
  subst hl
  have hle : (m.dropWhile (fun c => pyWs c)).length ≤ m.length :=
    (List.dropWhile_sublist (fun c => pyWs c)).length_le
  rw [hdw] at hle
  simp only [List.length_cons] at hle ⊢
  omega

theorem tsm_rest_suffix (l rep rest : List Char)
    (h : tryScriptMatch l = some (rep, rest)) : rest <:+ l := by
  obtain ⟨a, b, m, hl, _, _, _, hdw⟩ := tsm_some_shape l rep rest h
  subst hl
  have h1 : b :: rest <:+ m := by
    rw [← hdw]
    exact List.dropWhile_suffix fun c => pyWs c
  obtain ⟨u, hu⟩ := h1
  exact ⟨a :: '_' :: u ++ [b], by simp [← hu]⟩

theorem sb_go_none (n : Nat) (c : Char) (t : List Char)
    (hm : tryScriptMatch (c :: t) = none) :
    subscript_brace_go (n + 1) (c :: t) = c :: subscript_brace_go n t := by
  rw [subscript_brace_go, hm]

theorem sb_go_some (n : Nat) (c : Char) (t rep rest : List Char)
    (hm : tryScriptMatch (c :: t) = some (rep, rest)) :
    subscript_brace_go (n + 1) (c :: t) = rep ++ subscript_brace_go n rest := by
  rw [subscript_brace_go, hm]

theorem sb_go_dropWhile_head : ∀ (n : Nat) (l : List Char), l.length ≤ n →
    ((subscript_brace_go n l).dropWhile (fun c => pyWs c)).head? =
      (l.dropWhile (fun c => pyWs c)).head? := by
  intro n
  induction n with
  | zero => intro l _; rfl
  | succ n ih =>
    intro l hlen
    cases l with
    | nil => rfl
    | cons c t =>
      by_cases hws : pyWs c = true
      · have hm : tryScriptMatch (c :: t) = none :=
          tsm_head_not_alnum c t (pyWs_not_alnum c hws)
        rw [sb_go_none n c t hm]
        rw [List.dropWhile_cons, List.dropWhile_cons, if_pos (by simpa using hws),
          if_pos (by simpa using hws)]
        exact ih t (by simpa using Nat.succ_le_succ_iff.mp hlen)
      · rcases hm : tryScriptMatch (c :: t) with _ | ⟨rep, rest⟩
        · rw [sb_go_none n c t hm]
          rw [List.dropWhile_cons, List.dropWhile_cons, if_neg (by simpa using hws),
            if_neg (by simpa using hws)]
          rfl
        · obtain ⟨a, b, m, hl, hrep, ha, _, _⟩ := tsm_some_shape _ _ _ hm
          injection hl with h1 h2
          subst h1
          rw [sb_go_some n c t rep rest hm, hrep]
          rw [List.cons_append, List.dropWhile_cons, List.dropWhile_cons,
            if_neg (by simpa using hws), if_neg (by simpa using hws)]
          rfl

theorem noScriptP_nil : noScriptP [] := by
  intro s hs
  rw [List.suffix_nil.mp hs]
  rfl

theorem sb_go_noScript : ∀ (n : Nat) (l : List Char), l.length ≤ n →
    noScriptP (subscript_brace_go n l) := by
  intro n
  induction n with
  | zero =>
    intro l h
    rw [List.length_eq_zero.mp (Nat.le_zero.mp h)]
    exact noScriptP_nil
  | succ n ih =>
    intro l hlen
    cases l with
    | nil => exact noScriptP_nil
    | cons c t =>
      have hlt : t.length ≤ n := by simpa using Nat.succ_le_succ_iff.mp hlen
      rcases hm : tryScriptMatch (c :: t) with _ | ⟨rep, rest⟩
      · rw [sb_go_none n c t hm]
        have hT : noScriptP (subscript_brace_go n t) := ih t hlt
        intro s hs
        rcases List.suffix_cons_iff.mp hs with h1 | h1
        · subst h1
          rcases hgt : subscript_brace_go n t with _ | ⟨x, xs⟩
          · exact tsm_single c
          · have hx : t.head? = some x := by
              rw [← sb_go_head n t, hgt]
              rfl
            rcases t with _ | ⟨y, t2⟩
            · simp at hx
            · simp only [List.head?_cons] at hx
              injection hx with hx1
              by_cases hc : c.isAlphanum = true
              · by_cases hy : y = '_'
                · subst hy
                  subst hx1
                  have hinv := tsm_none_inv c t2 hc hm
                  apply tsm_after_ws
                  intro e he
                  cases n with
                  | zero =>
                    have hxs : xs = t2 := by
                      injection hgt with _ h2
                      exact h2.symm
                    rw [hxs] at he
                    exact hinv e he
                  | succ n2 =>
                    have hxs : xs = subscript_brace_go n2 t2 := by
                      rw [sb_go_none n2 '_' t2
                        (tsm_head_not_alnum '_' t2 (by decide))] at hgt
                      injection hgt with _ h2
                      exact h2.symm
                    rw [hxs] at he
                    rw [sb_go_dropWhile_head n2 t2
                      (by simp only [List.length_cons] at hlt; omega)] at he
                    exact hinv e he
                · rw [hx1] at hy
                  exact tsm_second_not_underscore c x xs (by rw [← hx1]; exact hx1 ▸ hy)
              · exact tsm_head_not_alnum c _ (by simpa using hc)
        · exact hT s h1
      · rw [sb_go_some n c t rep rest hm]
        obtain ⟨a, b, m, hl, hrep, ha, hb, hdw⟩ := tsm_some_shape _ _ _ hm
        have hrlen : rest.length ≤ n := by
          have := tsm_rest_len _ _ _ hm
          simp only [List.length_cons] at hlen this
          omega
        have hG : noScriptP (subscript_brace_go n rest) := ih rest hrlen
        rw [hrep]
        intro s hs
        rcases List.suffix_cons_iff.mp hs with h1 | h1
        · subst h1
          show tryScriptMatch
            (a :: '_' :: ('\x7b' :: b :: '\x7d' :: subscript_brace_go n rest)) = none
          apply tsm_after_ws
          intro e he
          rw [List.dropWhile_cons, if_neg (by decide)] at he
          simp only [List.head?_cons] at he
          injection he with he1
          rw [← he1]
          decide
        · rcases List.suffix_cons_iff.mp h1 with h2 | h2
          · subst h2
            exact tsm_head_not_alnum '_' _ (by decide)
          · rcases List.suffix_cons_iff.mp h2 with h3 | h3
            · subst h3
              exact tsm_head_not_alnum '\x7b' _ (by decide)
            · rcases List.suffix_cons_iff.mp h3 with h4 | h4
              · subst h4
                exact tsm_second_not_underscore b '\x7d' _ (by decide)
              · rcases List.suffix_cons_iff.mp h4 with h5 | h5
                · subst h5
                  exact tsm_head_not_alnum '\x7d' _ (by decide)
                · exact hG s h5

theorem du_cons_cons (a c : Char) (t : List Char) :
    drop_underscore_before_punct (a :: c :: t) =
      if a = '_' ∧ scriptPunct c then drop_underscore_before_punct (c :: t)
      else a :: drop_underscore_before_punct (c :: t) := by
  rw [drop_underscore_before_punct]

theorem du_head_keep (c : Char) (t : List Char) (hc : c ≠ '_') :
    (drop_underscore_before_punct (c :: t)).head? = some c := by
  cases t with
  | nil => rfl
  | cons d t' =>
    rw [du_cons_cons, if_neg (fun h => hc h.1)]
    rfl

theorem du_head_cases (l : List Char) :
    (drop_underscore_before_punct l).head? = l.head? ∨
      ∃ p, (drop_underscore_before_punct l).head? = some p ∧ scriptPunct p = true := by
  cases l with
  | nil => left; rfl
  | cons a t =>
    cases t with
    | nil => left; rfl
    | cons c t' =>
      by_cases h : a = '_' ∧ scriptPunct c
      · rw [du_cons_cons, if_pos h]
        right
        exact ⟨c, du_head_keep c t' (scriptPunct_props c h.2).1, h.2⟩
      · rw [du_cons_cons, if_neg h]
        left; rfl

theorem du_dropWhile_head : ∀ (l : List Char),
    ((drop_underscore_before_punct l).dropWhile (fun c => pyWs c)).head? =
      (l.dropWhile (fun c => pyWs c)).head? ∨
    ∃ p, ((drop_underscore_before_punct l).dropWhile (fun c => pyWs c)).head? = some p ∧
      scriptPunct p = true := by
  intro l
  induction l with
  | nil => left; rfl
  | cons a t ih =>
    cases t with
    | nil => left; rfl
    | cons c t' =>
      by_cases h : a = '_' ∧ scriptPunct c
      · rw [du_cons_cons, if_pos h]
        right
        have hp := scriptPunct_props c h.2
        have hh := du_head_keep c t' hp.1
        rcases hD : drop_underscore_before_punct (c :: t') with _ | ⟨x, xs⟩
        · rw [hD] at hh; cases hh
        · rw [hD] at hh
          simp only [List.head?_cons] at hh
          injection hh with hh1
          subst hh1
          rw [List.dropWhile_cons, if_neg (by simp [hp.2.2.1])]
          exact ⟨x, rfl, h.2⟩
      · rw [du_cons_cons, if_neg h]
        by_cases hws : pyWs a = true
        · rw [List.dropWhile_cons, List.dropWhile_cons, if_pos (by simpa using hws),
            if_pos (by simpa using hws)]
          exact ih
        · rw [List.dropWhile_cons, List.dropWhile_cons, if_neg (by simpa using hws),
            if_neg (by simpa using hws)]
          left; rfl

theorem noScriptP_du : ∀ (l : List Char), noScriptP l →
    noScriptP (drop_underscore_before_punct l) := by
  intro l
  induction l with
  | nil => intro h; exact h
  | cons a t ih =>
    intro h
    cases t with
    | nil => exact h
    | cons c t' =>
      have hrec : noScriptP (drop_underscore_before_punct (c :: t')) :=
        ih (noScriptP_suffix _ _ (List.suffix_cons a _) h)
      by_cases hdel : a = '_' ∧ scriptPunct c
      · rw [du_cons_cons, if_pos hdel]
        exact hrec
      · rw [du_cons_cons, if_neg hdel]
        intro s hs
        rcases List.suffix_cons_iff.mp hs with h1 | h1
        · subst h1
          rcases hD : drop_underscore_before_punct (c :: t') with _ | ⟨x, xs⟩
          · exact tsm_single a
          · by_cases hA : a.isAlphanum = true
            · by_cases hx : x = '_'
              · subst hx
                have hcases := du_head_cases (c :: t')
                rw [hD] at hcases
                rcases hcases with h2 | ⟨p, h2, hp⟩
                · simp only [List.head?_cons] at h2
                  injection h2 with h2
                  subst h2
                  have h0 : tryScriptMatch ('_' :: '_' :: t') = none := by
                    exact tsm_head_not_alnum _ _ (by decide)
                  cases t' with
                  | nil =>
                    have : xs = ([] : List Char) := by
                      injection hD with _ h3
                      exact h3.symm
                    subst this
                    apply tsm_after_ws
                    intro e he
                    simp at he
                  | cons d t2 =>
                    by_cases hdel2 : ('_' : Char) = '_' ∧ scriptPunct d
                    · exfalso
                      rw [du_cons_cons, if_pos hdel2] at hD
                      have := du_head_keep d t2 (scriptPunct_props d hdel2.2).1
                      rw [hD] at this
                      simp only [List.head?_cons] at this
                      injection this with h3
                      exact (scriptPunct_props d hdel2.2).1 h3.symm
                    · rw [du_cons_cons, if_neg hdel2] at hD
                      injection hD with _ h3
                      have hxs : xs = drop_underscore_before_punct (d :: t2) := h3.symm
                      subst hxs
                      have h00 : tryScriptMatch (a :: '_' :: d :: t2) = none :=
                        h _ (List.suffix_refl _)
                      have hinv := tsm_none_inv a (d :: t2) hA h00
                      apply tsm_after_ws
                      intro e he
                      rcases du_dropWhile_head (d :: t2) with hdw | ⟨p, hdw, hp⟩
                      · rw [hdw] at he
                        exact hinv e he
                      · rw [hdw] at he
                        injection he with he1
                        rw [← he1]
                        exact (scriptPunct_props p hp).2.1
                · exfalso
                  simp only [List.head?_cons] at h2
                  injection h2 with h2
                  exact (scriptPunct_props p hp).1 h2.symm
              · exact tsm_second_not_underscore a x xs hx
            · exact tsm_head_not_alnum a _ (by simpa using hA)
        · exact hrec s h1

theorem tsm_some_append (s v rep rest : List Char)
    (h : tryScriptMatch s = some (rep, rest)) :
    tryScriptMatch (s ++ v) = some (rep, rest ++ v) := by
  obtain ⟨a, b, m, hl, hrep, ha, hb, hdw⟩ := tsm_some_shape s rep rest h
  subst hl
  have hdw2 : (m ++ v).dropWhile (fun c => pyWs c) = b :: (rest ++ v) := by
    rw [List.dropWhile_append, hdw]
    simp
  show tryScriptMatch (a :: '_' :: (m ++ v)) = some (rep, rest ++ v)
  rw [tryScriptMatch, if_pos ⟨ha, rfl⟩, hdw2]
  show (if b.isAlphanum = true then some ([a, '_', '\x7b', b, '\x7d'], rest ++ v)
      else none) = some (rep, rest ++ v)
  rw [if_pos hb, hrep]

theorem noScriptP_right_truncate (u v : List Char) (h : noScriptP (u ++ v)) :
    noScriptP u := by
  intro s hs
  rcases htm : tryScriptMatch s with _ | ⟨rep, rest⟩
  · rfl
  · exfalso
    obtain ⟨t, ht⟩ := hs
    have hsv : s ++ v <:+ u ++ v := ⟨t, by rw [← List.append_assoc, ht]⟩
    have := h (s ++ v) hsv
    rw [tsm_some_append s v rep rest htm] at this
    cases this

theorem tsm_append_none (s r : List Char) (hs : tryScriptMatch s = none)
    (hr : ∀ c, r.head? = some c → c.isAlphanum = false ∧ pyWs c = false ∧ c ≠ '_') :
    tryScriptMatch (s ++ r) = none := by
  match s with
  | [] =>
    cases r with
    | nil => rfl
    | cons c r' => exact tsm_head_not_alnum c r' (hr c rfl).1
  | [a] =>
    cases r with
    | nil => rfl
    | cons c r' => exact tsm_second_not_underscore a c r' (hr c rfl).2.2
  | a :: u :: m =>
    by_cases hc : a.isAlphanum = true ∧ u = '_'
    · obtain ⟨hA, hu⟩ := hc
      subst hu
      show tryScriptMatch (a :: '_' :: (m ++ r)) = none
      apply tsm_after_ws
      intro e he
      rw [List.dropWhile_append] at he
      by_cases hemp : (m.dropWhile (fun c => pyWs c)).isEmpty = true
      · rw [if_pos hemp] at he
        cases r with
        | nil => simp at he
        | cons c r' =>
          rw [List.dropWhile_cons, if_neg (by simp [(hr c rfl).2.1])] at he
          simp only [List.head?_cons] at he
          injection he with he1
          rw [← he1]
          exact (hr c rfl).1
      · rw [if_neg hemp] at he
        rcases hm : m.dropWhile (fun c => pyWs c) with _ | ⟨x, m'⟩
        · rw [hm] at hemp; simp at hemp
        · rw [hm] at he
          simp only [List.cons_append, List.head?_cons] at he
          injection he with he1
          rw [← he1]
          exact tsm_none_inv a m hA hs x (by rw [hm]; rfl)
    · show tryScriptMatch (a :: u :: (m ++ r)) = none
      rw [tryScriptMatch, if_neg hc]

theorem noScriptP_append (l r : List Char) (hl : noScriptP l) (hr : noScriptP r)
    (hhead : ∀ c, r.head? = some c →
      c.isAlphanum = false ∧ pyWs c = false ∧ c ≠ '_') :
    noScriptP (l ++ r) := by
  induction l with
  | nil => simpa using hr
  | cons a l' ih =>
    intro s hs
    rw [List.cons_append] at hs
    rcases List.suffix_cons_iff.mp hs with h1 | h1
    · subst h1
      rw [← List.cons_append]
      exact tsm_append_none (a :: l') r (hl _ (List.suffix_refl _)) hhead
    · exact ih (noScriptP_suffix _ _ (List.suffix_cons a l') hl) s h1

theorem noScriptP_replicate_close (k : Nat) :
    noScriptP (List.replicate k '\x7d') := by
  induction k with
  | zero => exact noScriptP_nil
  | succ k ih =>
    intro s hs
    rw [List.replicate_succ] at hs
    rcases List.suffix_cons_iff.mp hs with h1 | h1
    · subst h1
      exact tsm_head_not_alnum _ _ (by decide)
    · exact ih s h1

theorem fb_eq_append (w : List Char)
    (h : countChar '\x7d' w ≤ countChar '\x7b' w) :
    ∃ k, fix_braces w = w ++ List.replicate k '\x7d' := by
  simp only [fix_braces]
  by_cases h1 : countChar '\x7b' w > countChar '\x7d' w
  · exact ⟨countChar '\x7b' w - countChar '\x7d' w, by rw [if_pos h1]⟩
  · exact ⟨0, by rw [if_neg h1, if_neg (by omega)]; simp⟩

theorem noScriptP_fb (w : List Char) (hns : noScriptP w)
    (h : countChar '\x7d' w ≤ countChar '\x7b' w) : noScriptP (fix_braces w) := by
  obtain ⟨k, hk⟩ := fb_eq_append w h
  rw [hk]
  apply noScriptP_append w _ hns (noScriptP_replicate_close k)
  intro c hc
  cases k with
  | zero => simp at hc
  | succ k =>
    rw [List.replicate_succ] at hc
    simp only [List.head?_cons] at hc
    injection hc with hc1
    rw [← hc1]
    exact ⟨by decide, by decide, by decide⟩

theorem strip_decomp (l : List Char) :
    stripLeft l = strip l ++ (List.takeWhile (fun c => pyWs c)
      (stripLeft l).reverse).reverse := by
  have h := List.takeWhile_append_dropWhile (fun c => pyWs c) (stripLeft l).reverse
  have h2 := congrArg List.reverse h
  rw [List.reverse_append, List.reverse_reverse] at h2
  rw [strip]
  exact h2.symm

theorem noScriptP_strip (l : List Char) (h : noScriptP l) : noScriptP (strip l) := by
  have h1 : noScriptP (stripLeft l) :=
    noScriptP_suffix l _ (List.dropWhile_suffix fun c => pyWs c) h
  rw [strip_decomp l] at h1
  exact noScriptP_right_truncate _ _ h1

theorem cu_cons_cons (a b : Char) (t : List Char) :
    collapse_underscores (a :: b :: t) =
      if a = '_' ∧ b = '_' then collapse_underscores (b :: t)
      else a :: collapse_underscores (b :: t) := by
  rw [collapse_underscores]

theorem cu_head : ∀ (l : List Char), (collapse_underscores l).head? = l.head? := by
  intro l
  induction l with
  | nil => rfl
  | cons a t ih =>
    cases t with
    | nil => rfl
    | cons b t' =>
      by_cases h : a = '_' ∧ b = '_'
      · rw [cu_cons_cons, if_pos h, ih]
        simp [h.1, h.2]
      · rw [cu_cons_cons, if_neg h]; rfl

theorem cu_noAdj : ∀ (l : List Char),
    noPairAdj (fun a b => a = '_' && b = '_') (collapse_underscores l) = true := by
  intro l
  induction l with
  | nil => rfl
  | cons a t ih =>
    cases t with
    | nil => rfl
    | cons b t' =>
      by_cases h : a = '_' ∧ b = '_'
      · rw [cu_cons_cons, if_pos h]; exact ih
      · rw [cu_cons_cons, if_neg h]
        rcases hc : collapse_underscores (b :: t') with _ | ⟨x, xs⟩
        · rfl
        · rw [noPairAdj, Bool.and_eq_true]
          refine ⟨?_, by rw [← hc]; exact ih⟩
          have hhd := cu_head (b :: t')
          rw [hc] at hhd
          simp only [List.head?_cons] at hhd
          injection hhd with h3
          subst h3
          simp only [Bool.not_eq_true', Bool.and_eq_false_iff, decide_eq_false_iff_not]
          by_cases ha : a = '_'
          · right; exact fun hb => h ⟨ha, hb⟩
          · left; exact ha

theorem np_cu (f : Char → Char → Bool) : ∀ (l : List Char),
    noPairAdj f l = true → noPairAdj f (collapse_underscores l) = true := by
  intro l
  induction l with
  | nil => intro h; exact h
  | cons a t ih =>
    intro h
    cases t with
    | nil => exact h
    | cons b t' =>
      have hrec := ih (noPairAdj_tail f a _ h)
      by_cases hd : a = '_' ∧ b = '_'
      · rw [cu_cons_cons, if_pos hd]; exact hrec
      · rw [cu_cons_cons, if_neg hd]
        rcases hc : collapse_underscores (b :: t') with _ | ⟨x, xs⟩
        · rfl
        · rw [noPairAdj, Bool.and_eq_true]
          refine ⟨?_, by rw [← hc]; exact hrec⟩
          have hhd := cu_head (b :: t')
          rw [hc] at hhd
          simp only [List.head?_cons] at hhd
          injection hhd with h3
          subst h3
          rw [noPairAdj, Bool.and_eq_true] at h
          exact h.1

theorem dd_cons_cons (a b : Char) (t : List Char) :
    dedupSpaces (a :: b :: t) =
      if a = ' ' ∧ b = ' ' then dedupSpaces (b :: t)
      else a :: dedupSpaces (b :: t) := by
  rw [dedupSpaces]

theorem dd_head : ∀ (l : List Char), (dedupSpaces l).head? = l.head? := by
  intro l
  induction l with
  | nil => rfl
  | cons a t ih =>
    cases t with
    | nil => rfl
    | cons b t' =>
      by_cases h : a = ' ' ∧ b = ' '
      · rw [dd_cons_cons, if_pos h, ih]
        simp [h.1, h.2]
      · rw [dd_cons_cons, if_neg h]; rfl

theorem dd_noAdj : ∀ (l : List Char),
    noPairAdj (fun a b => a = ' ' && b = ' ') (dedupSpaces l) = true := by
  intro l
  induction l with
  | nil => rfl
  | cons a t ih =>
    cases t with
    | nil => rfl
    | cons b t' =>
      by_cases h : a = ' ' ∧ b = ' '
      · rw [dd_cons_cons, if_pos h]; exact ih
      · rw [dd_cons_cons, if_neg h]
        rcases hc : dedupSpaces (b :: t') with _ | ⟨x, xs⟩
        · rfl
        · rw [noPairAdj, Bool.and_eq_true]
          refine ⟨?_, by rw [← hc]; exact ih⟩
          have hhd := dd_head (b :: t')
          rw [hc] at hhd
          simp only [List.head?_cons] at hhd
          injection hhd with h3
          subst h3
          simp only [Bool.not_eq_true', Bool.and_eq_false_iff, decide_eq_false_iff_not]
          by_cases ha : a = ' '
          · right; exact fun hb => h ⟨ha, hb⟩
          · left; exact ha

theorem np_sb (f : Char → Char → Bool)
    (hbrace1 : ∀ x, f x '\x7b' = false)
    (hbrace2 : ∀ x, f '\x7b' x = false)
    (hclose : ∀ x, f '\x7d' x = false)
    (halnum : ∀ x y, x.isAlphanum = true → f x y = false) :
    ∀ (n : Nat) (l : List Char), l.length ≤ n → noPairAdj f l = true →
      noPairAdj f (subscript_brace_go n l) = true := by
  intro n
  induction n with
  | zero => intro l _ h; exact h
  | succ n ih =>
    intro l hlen h
    cases l with
    | nil => rfl
    | cons c t =>
      have hlt : t.length ≤ n := by simpa using Nat.succ_le_succ_iff.mp hlen
      rcases hm : tryScriptMatch (c :: t) with _ | ⟨rep, rest⟩
      · rw [sb_go_none n c t hm]
        have hrec := ih t hlt (noPairAdj_tail f c t h)
        rcases hgt : subscript_brace_go n t with _ | ⟨x, xs⟩
        · rfl
        · rw [noPairAdj, Bool.and_eq_true]
          refine ⟨?_, by rw [← hgt]; exact hrec⟩
          have hhd := sb_go_head n t
          rw [hgt] at hhd
          cases t with
          | nil => simp at hhd
          | cons y t2 =>
            simp only [List.head?_cons] at hhd
            injection hhd with h3
            subst h3
            rw [noPairAdj, Bool.and_eq_true] at h
            exact h.1
      · rw [sb_go_some n c t rep rest hm]
        obtain ⟨a, b, m, hl, hrep, ha, hb, _⟩ := tsm_some_shape _ _ _ hm
        have hrlen : rest.length ≤ n := by
          have := tsm_rest_len _ _ _ hm
          simp only [List.length_cons] at hlen this
          omega
        have hrest : noPairAdj f rest = true :=
          noPairAdj_suffix f (c :: t) rest (tsm_rest_suffix _ _ _ hm) h
        rw [hrep]
        apply noPairAdj_append f _ _ _ (ih rest hrlen hrest)
        · intro p q hp hq
          have h5 : '\x7d' = p := by
            simp only [List.getLast?_cons_cons] at hp
            simpa using hp
          rw [← h5]
          exact hclose q
        · show noPairAdj f [a, '_', '\x7b', b, '\x7d'] = true
          simp [noPairAdj, halnum a '_' ha, hbrace1 '_', hbrace2 b, halnum b '\x7d' hb]

theorem np_du (f : Char → Char → Bool)
    (hpunct : ∀ x p, scriptPunct p = true → f x p = false) :
    ∀ (l : List Char), noPairAdj f l = true →
      noPairAdj f (drop_underscore_before_punct l) = true := by
  intro l
  induction l with
  | nil => intro h; exact h
  | cons a t ih =>
    intro h
    cases t with
    | nil => exact h
    | cons c t' =>
      have hrec := ih (noPairAdj_tail f a _ h)
      by_cases hdel : a = '_' ∧ scriptPunct c
      · rw [du_cons_cons, if_pos hdel]; exact hrec
      · rw [du_cons_cons, if_neg hdel]
        rcases hD : drop_underscore_before_punct (c :: t') with _ | ⟨x, xs⟩
        · rfl
        · rw [noPairAdj, Bool.and_eq_true]
          refine ⟨?_, by rw [← hD]; exact hrec⟩
          rcases du_head_cases (c :: t') with h2 | ⟨p, h2, hp⟩
          · rw [hD] at h2
            simp only [List.head?_cons] at h2
            injection h2 with h2
            subst h2
            rw [noPairAdj, Bool.and_eq_true] at h
            exact h.1
          · rw [hD] at h2
            simp only [List.head?_cons] at h2
            injection h2 with h2
            rw [h2]
            simp [hpunct a p hp]

theorem du_complete : ∀ (l : List Char),
    noPairAdj (fun a b => a = '_' && b = '_') l = true →
    noPairAdj (fun a b => a = '_' && scriptPunct b)
      (drop_underscore_before_punct l) = true := by
  intro l
  induction l with
  | nil => intro _; rfl
  | cons a t ih =>
    intro h
    cases t with
    | nil => rfl
    | cons c t' =>
      have hrec := ih (noPairAdj_tail _ a _ h)
      by_cases hdel : a = '_' ∧ scriptPunct c
      · rw [du_cons_cons, if_pos hdel]; exact hrec
      · rw [du_cons_cons, if_neg hdel]
        rcases hD : drop_underscore_before_punct (c :: t') with _ | ⟨x, xs⟩
        · rfl
        · rw [noPairAdj, Bool.and_eq_true]
          refine ⟨?_, by rw [← hD]; exact hrec⟩
          by_cases ha : a = '_'
          · subst ha
            have hc : ¬ scriptPunct c = true := fun hp => hdel ⟨rfl, hp⟩
            have hcu : c ≠ '_' := by
              rw [noPairAdj, Bool.and_eq_true] at h
              have h1 := h.1
              simp only [Bool.not_eq_true', Bool.and_eq_false_iff,
                decide_eq_false_iff_not] at h1
              rcases h1 with h' | h'
              · exact absurd trivial h'
              · exact h'
            have hh := du_head_keep c t' hcu
            rw [hD] at hh
            simp only [List.head?_cons] at hh
            injection hh with h3
            subst h3
            simp [hc]
          · simp [ha]

theorem np_fb (f : Char → Char → Bool) (w : List Char)
    (hcount : countChar '\x7d' w ≤ countChar '\x7b' w)
    (hw : noPairAdj f w = true)
    (hclose2 : ∀ x, f x '\x7d' = false)
    (hclose3 : ∀ x, f '\x7d' x = false) :
    noPairAdj f (fix_braces w) = true := by
  obtain ⟨k, hk⟩ := fb_eq_append w hcount
  rw [hk]
  apply noPairAdj_append f w _ hw
  · apply noPairAdj_not_fst
    intro a b ha
    rw [List.eq_of_mem_replicate ha]
    exact hclose3 b
  · intro a b _ hb
    cases k with
    | zero => simp at hb
    | succ k =>
      rw [List.replicate_succ] at hb
      simp only [List.head?_cons] at hb
      injection hb with hb1
      rw [← hb1]
      exact hclose2 a

theorem alnum_not_special (a : Char) (h : a.isAlphanum = true) :
    a ≠ '\x7b' ∧ a ≠ '\x7d' ∧ a ≠ '_' ∧ a ≠ ' ' := by
  refine ⟨?_, ?_, ?_, ?_⟩ <;> intro he <;> subst he <;> cases h

theorem countChar_cons (c a : Char) (t : List Char) :
    countChar c (a :: t) = (if a = c then 1 else 0) + countChar c t := by
  rw [countChar, countChar, List.filter_cons]
  by_cases h : a = c
  · simp [h, Nat.add_comm]
  · simp [h]

theorem countChar_append (c : Char) (l r : List Char) :
    countChar c (l ++ r) = countChar c l + countChar c r := by
  simp [countChar, List.filter_append]

theorem countChar_reverse (c : Char) (l : List Char) :
    countChar c l.reverse = countChar c l := by
  simp [countChar, List.filter_reverse]

theorem countChar_eq_zero (c : Char) (l : List Char) (h : c ∉ l) :
    countChar c l = 0 := by
  rw [countChar, List.length_eq_zero]
  apply List.filter_eq_nil_iff.mpr
  intro a ha
  simp only [decide_eq_true_eq]
  intro he
  exact h (he ▸ ha)

theorem countChar_replicate_close (k : Nat) :
    countChar '\x7d' (List.replicate k '\x7d') = k := by
  induction k with
  | zero => rfl
  | succ k ih =>
    rw [List.replicate_succ, countChar_cons, if_pos rfl, ih]
    omega

theorem countChar_stripLeft (c : Char) (l : List Char) (hc : pyWs c = false) :
    countChar c (stripLeft l) = countChar c l := by
  conv_rhs => rw [← List.takeWhile_append_dropWhile (fun x => pyWs x) l]
  rw [countChar_append]
  have h0 : countChar c (List.takeWhile (fun x => pyWs x) l) = 0 := by
    apply countChar_eq_zero
    intro hmem
    have := List.mem_takeWhile_imp hmem
    rw [hc] at this
    cases this
  rw [h0]
  simp [stripLeft]

theorem countChar_strip (c : Char) (l : List Char) (hc : pyWs c = false) :
    countChar c (strip l) = countChar c l := by
  have h1 := countChar_stripLeft c l hc
  rw [strip_decomp l, countChar_append] at h1
  have h0 : countChar c (List.takeWhile (fun x => pyWs x) (stripLeft l).reverse).reverse = 0 := by
    apply countChar_eq_zero
    intro hmem
    rw [List.mem_reverse] at hmem
    have := List.mem_takeWhile_imp hmem
    rw [hc] at this
    cases this
  rw [h0] at h1
  omega

theorem countChar_map_ws (c : Char) (l : List Char) (hc : pyWs c = false)
    (hcs : c ≠ ' ') : countChar c (l.map wsToSpace) = countChar c l := by
  induction l with
  | nil => rfl
  | cons a t ih =>
    rw [List.map_cons, countChar_cons, countChar_cons, ih]
    congr 1
    by_cases ha : pyWs a = true
    · have h1 : wsToSpace a = ' ' := by rw [wsToSpace, if_pos (by simpa using ha)]
      rw [h1, if_neg (fun he => hcs he.symm),
        if_neg (fun he => by rw [he, hc] at ha; cases ha)]
    · have h1 : wsToSpace a = a := by rw [wsToSpace, if_neg (by simpa using ha)]
      rw [h1]

theorem countChar_dd (c : Char) (l : List Char) (hc : c ≠ ' ') :
    countChar c (dedupSpaces l) = countChar c l := by
  induction l with
  | nil => rfl
  | cons a t ih =>
    cases t with
    | nil => rfl
    | cons b t' =>
      by_cases h : a = ' ' ∧ b = ' '
      · rw [dd_cons_cons, if_pos h, ih, countChar_cons c a (b :: t'),
          if_neg (fun he => hc (he.symm.trans h.1))]
        omega
      · rw [dd_cons_cons, if_neg h, countChar_cons, countChar_cons, ih]

theorem countChar_cu (c : Char) (l : List Char) (hc : c ≠ '_') :
    countChar c (collapse_underscores l) = countChar c l := by
  induction l with
  | nil => rfl
  | cons a t ih =>
    cases t with
    | nil => rfl
    | cons b t' =>
      by_cases h : a = '_' ∧ b = '_'
      · rw [cu_cons_cons, if_pos h, ih, countChar_cons c a (b :: t'),
          if_neg (fun he => hc (he.symm.trans h.1))]
        omega
      · rw [cu_cons_cons, if_neg h, countChar_cons, countChar_cons, ih]

theorem countChar_du (c : Char) (l : List Char) (hc : c ≠ '_') :
    countChar c (drop_underscore_before_punct l) = countChar c l := by
  induction l with
  | nil => rfl
  | cons a t ih =>
    cases t with
    | nil => rfl
    | cons d t' =>
      by_cases h : a = '_' ∧ scriptPunct d
      · rw [du_cons_cons, if_pos h, ih, countChar_cons c a (d :: t'),
          if_neg (fun he => hc (he.symm.trans h.1))]
        omega
      · rw [du_cons_cons, if_neg h, countChar_cons, countChar_cons, ih]

theorem countChar_rep5 (c a b : Char) (ha : a.isAlphanum = true) (hb : b.isAlphanum = true)
    (hc : c = '\x7b' ∨ c = '\x7d') :
    countChar c [a, '_', '\x7b', b, '\x7d'] = 1 := by
  have hA := alnum_not_special a ha
  have hB := alnum_not_special b hb
  rcases hc with rfl | rfl
  · rw [countChar_cons, countChar_cons, countChar_cons, countChar_cons, countChar_cons,
      if_neg hA.1, if_neg (by decide), if_pos rfl, if_neg hB.1, if_neg (by decide)]
    rfl
  · rw [countChar_cons, countChar_cons, countChar_cons, countChar_cons, countChar_cons,
      if_neg hA.2.1, if_neg (by decide), if_neg (by decide), if_neg hB.2.1, if_pos rfl]
    rfl

theorem countChar_brace_consumed (c a b : Char) (m rest : List Char)
    (ha : a.isAlphanum = true) (hb : b.isAlphanum = true)
    (hc : c = '\x7b' ∨ c = '\x7d')
    (hdw : m.dropWhile (fun x => pyWs x) = b :: rest) :
    countChar c (a :: '_' :: m) = countChar c rest := by
  have hA := alnum_not_special a ha
  have hB := alnum_not_special b hb
  have hcb : c ≠ '_' ∧ pyWs c = false := by
    rcases hc with rfl | rfl <;> exact ⟨by decide, by decide⟩
  rw [countChar_cons, countChar_cons]
  rw [if_neg, if_neg]
  · conv_lhs => rw [← List.takeWhile_append_dropWhile (fun x => pyWs x) m]
    rw [countChar_append, hdw, countChar_cons]
    have h0 : countChar c (List.takeWhile (fun x => pyWs x) m) = 0 := by
      apply countChar_eq_zero
      intro hmem
      have := List.mem_takeWhile_imp hmem
      rw [hcb.2] at this
      cases this
    rw [h0, if_neg]
    · omega
    · intro he
      rcases hc with rfl | rfl
      · exact hB.1 he
      · exact hB.2.1 he
  · intro he
    exact hcb.1 he.symm
  · intro he
    rcases hc with rfl | rfl
    · exact hA.1 he
    · exact hA.2.1 he

theorem count_sb_go : ∀ (n : Nat) (l : List Char), l.length ≤ n →
    countChar '\x7b' (subscript_brace_go n l) + countChar '\x7d' l =
      countChar '\x7d' (subscript_brace_go n l) + countChar '\x7b' l := by
  intro n
  induction n with
  | zero =>
    intro l _
    show countChar '\x7b' l + countChar '\x7d' l = countChar '\x7d' l + countChar '\x7b' l
    omega
  | succ n ih =>
    intro l hlen
    cases l with
    | nil => rfl
    | cons c t =>
      have hlt : t.length ≤ n := by simpa using Nat.succ_le_succ_iff.mp hlen
      rcases hm : tryScriptMatch (c :: t) with _ | ⟨rep, rest⟩
      · rw [sb_go_none n c t hm]
        have := ih t hlt
        rw [countChar_cons, countChar_cons, countChar_cons, countChar_cons]
        omega
      · rw [sb_go_some n c t rep rest hm]
        obtain ⟨a, b, m, hl, hrep, ha, hb, hdw⟩ := tsm_some_shape _ _ _ hm
        have hrlen : rest.length ≤ n := by
          have := tsm_rest_len _ _ _ hm
          simp only [List.length_cons] at hlen this
          omega
        have hrec := ih rest hrlen
        rw [hrep, countChar_append, countChar_append]
        rw [countChar_rep5 _ a b ha hb (Or.inl rfl), countChar_rep5 _ a b ha hb (Or.inr rfl)]
        rw [hl]
        rw [countChar_brace_consumed '\x7b' a b m rest ha hb (Or.inl rfl) hdw,
          countChar_brace_consumed '\x7d' a b m rest ha hb (Or.inr rfl) hdw]
        omega

theorem fb_balanced (w : List Char)
    (h : countChar '\x7d' w ≤ countChar '\x7b' w) :
    countChar '\x7b' (fix_braces w) = countChar '\x7d' (fix_braces w) := by
  simp only [fix_braces]
  by_cases h1 : countChar '\x7b' w > countChar '\x7d' w
  · rw [if_pos h1]
    rw [countChar_append, countChar_append, countChar_replicate_close]
    have h2 : countChar '\x7b' (List.replicate
        (countChar '\x7b' w - countChar '\x7d' w) '\x7d') = 0 :=
      countChar_eq_zero _ _ (fun hm => by cases List.eq_of_mem_replicate hm)
    rw [h2]
    omega
  · rw [if_neg h1, if_neg (by omega)]
    omega

theorem mem_strip (l : List Char) (c : Char) (h : c ∈ strip l) : c ∈ l :=
  (strip_within l).sublist.subset h

theorem mem_dd : ∀ (l : List Char) (c : Char), c ∈ dedupSpaces l → c ∈ l := by
  intro l
  induction l with
  | nil => intro c h; exact h
  | cons a t ih =>
    intro c h
    cases t with
    | nil => exact h
    | cons b t' =>
      by_cases hd : a = ' ' ∧ b = ' '
      · rw [dd_cons_cons, if_pos hd] at h
        exact List.mem_cons_of_mem a (ih c h)
      · rw [dd_cons_cons, if_neg hd] at h
        rcases List.mem_cons.mp h with h1 | h1
        · exact h1 ▸ List.mem_cons_self a _
        · exact List.mem_cons_of_mem a (ih c h1)

theorem mem_cu : ∀ (l : List Char) (c : Char), c ∈ collapse_underscores l → c ∈ l := by
  intro l
  induction l with
  | nil => intro c h; exact h
  | cons a t ih =>
    intro c h
    cases t with
    | nil => exact h
    | cons b t' =>
      by_cases hd : a = '_' ∧ b = '_'
      · rw [cu_cons_cons, if_pos hd] at h
        exact List.mem_cons_of_mem a (ih c h)
      · rw [cu_cons_cons, if_neg hd] at h
        rcases List.mem_cons.mp h with h1 | h1
        · exact h1 ▸ List.mem_cons_self a _
        · exact List.mem_cons_of_mem a (ih c h1)

theorem mem_du : ∀ (l : List Char) (c : Char),
    c ∈ drop_underscore_before_punct l → c ∈ l := by
  intro l
  induction l with
  | nil => intro c h; exact h
  | cons a t ih =>
    intro c h
    cases t with
    | nil => exact h
    | cons d t' =>
      by_cases hd : a = '_' ∧ scriptPunct d
      · rw [du_cons_cons, if_pos hd] at h
        exact List.mem_cons_of_mem a (ih c h)
      · rw [du_cons_cons, if_neg hd] at h
        rcases List.mem_cons.mp h with h1 | h1
        · exact h1 ▸ List.mem_cons_self a _
        · exact List.mem_cons_of_mem a (ih c h1)

theorem mem_map_ws (l : List Char) (c : Char) (h : c ∈ l.map wsToSpace) :
    c ∈ l ∨ c = ' ' := by
  obtain ⟨d, hd, he⟩ := List.mem_map.mp h
  rw [wsToSpace] at he
  by_cases hws : pyWs d = true
  · rw [if_pos (by simpa using hws)] at he
    right; exact he.symm
  · rw [if_neg (by simpa using hws)] at he
    left; exact he ▸ hd

theorem mem_cw (l : List Char) (c : Char) (h : c ∈ collapse_ws l) :
    c ∈ l ∨ c = ' ' :=
  mem_map_ws l c (mem_dd _ c (mem_strip _ c h))

theorem mem_sb_go : ∀ (n : Nat) (l : List Char) (c : Char),
    c ∈ subscript_brace_go n l → c ∈ l ∨ c = '\x7b' ∨ c = '\x7d' := by
  intro n
  induction n with
  | zero => intro l c h; left; exact h
  | succ n ih =>
    intro l c h
    cases l with
    | nil => exact absurd (show c ∈ ([] : List Char) from h) (List.not_mem_nil c)
    | cons c0 t =>
      rcases hm : tryScriptMatch (c0 :: t) with _ | ⟨rep, rest⟩
      · rw [sb_go_none n c0 t hm] at h
        rcases List.mem_cons.mp h with h1 | h1
        · left; exact h1 ▸ List.mem_cons_self c0 _
        · rcases ih t c h1 with h2 | h2
          · left; exact List.mem_cons_of_mem c0 h2
          · right; exact h2
      · rw [sb_go_some n c0 t rep rest hm] at h
        obtain ⟨a, b, m, hl, hrep, ha, hb, hdw⟩ := tsm_some_shape _ _ _ hm
        rcases List.mem_append.mp h with h1 | h1
        · rw [hrep] at h1
          rcases List.mem_cons.mp h1 with h2 | h1
          · left; rw [hl, h2]; exact List.mem_cons_self a _
          · rcases List.mem_cons.mp h1 with h2 | h1
            · left; rw [hl, h2]
              exact List.mem_cons_of_mem a (List.mem_cons_self '_' m)
            · rcases List.mem_cons.mp h1 with h2 | h1
              · right; left; exact h2
              · rcases List.mem_cons.mp h1 with h2 | h1
                · left
                  rw [hl, h2]
                  have hbm : b ∈ m := by
                    apply (List.dropWhile_sublist (fun x => pyWs x)).subset
                    rw [hdw]
                    exact List.mem_cons_self b rest
                  exact List.mem_cons_of_mem a (List.mem_cons_of_mem '_' hbm)
                · rcases List.mem_cons.mp h1 with h2 | h1
                  · right; right; exact h2
                  · exact absurd h1 (List.not_mem_nil c)
        · rcases ih rest c h1 with h2 | h2
          · left
            exact (tsm_rest_suffix _ _ _ hm).sublist.subset h2
          · right; exact h2

theorem mem_fb (w : List Char) (c : Char)
    (hcnt : countChar '\x7d' w ≤ countChar '\x7b' w) (h : c ∈ fix_braces w) :
    c ∈ w ∨ c = '\x7d' := by
  obtain ⟨k, hk⟩ := fb_eq_append w hcnt
  rw [hk] at h
  rcases List.mem_append.mp h with h1 | h1
  · left; exact h1
  · right; exact List.eq_of_mem_replicate h1

theorem mem_post_chain (w : List Char) (c : Char)
    (hcnt : countChar '\x7d' (drop_underscore_before_punct (subscript_brace
      (collapse_underscores w))) ≤ countChar '\x7b' (drop_underscore_before_punct
      (subscript_brace (collapse_underscores w))))
    (h : c ∈ strip (fix_braces (drop_underscore_before_punct (subscript_brace
      (collapse_underscores w))))) :
    c ∈ w ∨ c = '\x7b' ∨ c = '\x7d' := by
  have h1 := mem_strip _ _ h
  rcases mem_fb _ _ hcnt h1 with h2 | h2
  · have h3 := mem_du _ _ h2
    rcases mem_sb_go _ _ _ h3 with h4 | h4
    · left
      exact mem_cu _ _ h4
    · right; exact h4
  · right; right; exact h2

theorem cw_ws (l : List Char) (c : Char) (h : c ∈ collapse_ws l)
    (hws : pyWs c = true) : c = ' ' := by
  have h1 := mem_dd _ c (mem_strip _ c h)
  obtain ⟨d, hd, he⟩ := List.mem_map.mp h1
  rw [wsToSpace] at he
  by_cases hpd : pyWs d = true
  · rw [if_pos (by simpa using hpd)] at he
    exact he.symm
  · rw [if_neg (by simpa using hpd)] at he
    rw [he] at hpd
    exact absurd hws hpd

/-- C3 (amended): the token reconstructor is idempotent on tame inputs —
every ASCII input containing no dollar sign and no caret whose closing-brace
count does not exceed its opening-brace count satisfies
`reconstruct (reconstruct x) = reconstruct x`. (Full idempotence fails: see
the counterexample, which exploits the one-wrapper-per-call dollar stripping;
carets break it through the rewrite ordering of `_fix_script_noise`, and a
closing-brace surplus through `_fix_braces` followed by the final strip.) -/
theorem c3_reconstruct_idempotent_on_tame (x : List Char)
    (hascii : ∀ c ∈ x, c.toNat < 128)
    (hdollar : '$' ∉ x) (hcaret : '^' ∉ x)
    (hbrace : countChar '\x7d' x ≤ countChar '\x7b' x) :
    reconstruct (reconstruct x) = reconstruct x := by
  by_cases hx : strip x = []
  · have h1 : reconstruct x = [] := by rw [reconstruct, if_pos hx]
    rw [h1]
    show reconstruct [] = []
    rw [reconstruct, if_pos (show strip ([] : List Char) = [] from rfl)]
  · have hds : dollarStrip (strip x) = strip x :=
      dollarStrip_id _ (fun c hc he =>
        hdollar (he ▸ mem_strip x c (head_mem_of_head? _ c hc)))
    have hrg : remove_garbage (strip x) = strip x :=
      remove_garbage_id _ (fun c hc => hascii c (mem_strip x c hc))
    have hmemu : ∀ c ∈ drop_underscore_before_punct (subscript_brace
        (collapse_underscores (collapse_ws (strip x)))),
        c ∈ strip x ∨ c = ' ' ∨ c = '\x7b' ∨ c = '\x7d' := by
      intro c hc
      have h3 := mem_du _ _ hc
      rcases mem_sb_go _ _ _ h3 with h4 | h4
      · rcases mem_cw _ _ (mem_cu _ _ h4) with h5 | h5
        · left; exact h5
        · right; left; exact h5
      · right; right; exact h4
    have hdc : drop_caret_before_punct (drop_underscore_before_punct (subscript_brace
        (collapse_underscores (collapse_ws (strip x))))) =
        drop_underscore_before_punct (subscript_brace
        (collapse_underscores (collapse_ws (strip x)))) := by
      apply drop_caret_id
      apply noPairAdj_not_fst
      intro a b ha
      have hne : a ≠ '^' := by
        rcases hmemu a ha with h5 | h5 | h5 | h5
        · exact fun he => hcaret (he ▸ mem_strip x a h5)
        · rw [h5]; decide
        · rw [h5]; decide
        · rw [h5]; decide
      simp [hne]
    have ebz : countChar '\x7b' (strip x) = countChar '\x7b' x :=
      countChar_strip _ _ (by decide)
    have ecz : countChar '\x7d' (strip x) = countChar '\x7d' x :=
      countChar_strip _ _ (by decide)
    have ebw : countChar '\x7b' (collapse_ws (strip x)) = countChar '\x7b' (strip x) := by
      rw [collapse_ws, countChar_strip _ _ (by decide), countChar_dd _ _ (by decide),
        countChar_map_ws _ _ (by decide) (by decide)]
    have ecw : countChar '\x7d' (collapse_ws (strip x)) = countChar '\x7d' (strip x) := by
      rw [collapse_ws, countChar_strip _ _ (by decide), countChar_dd _ _ (by decide),
        countChar_map_ws _ _ (by decide) (by decide)]
    have ebv : countChar '\x7b' (collapse_underscores (collapse_ws (strip x))) =
        countChar '\x7b' (collapse_ws (strip x)) := countChar_cu _ _ (by decide)
    have ecv : countChar '\x7d' (collapse_underscores (collapse_ws (strip x))) =
        countChar '\x7d' (collapse_ws (strip x)) := countChar_cu _ _ (by decide)
    have esb : countChar '\x7b' (subscript_brace (collapse_underscores
          (collapse_ws (strip x)))) +
        countChar '\x7d' (collapse_underscores (collapse_ws (strip x))) =
        countChar '\x7d' (subscript_brace (collapse_underscores
          (collapse_ws (strip x)))) +
        countChar '\x7b' (collapse_underscores (collapse_ws (strip x))) :=
      count_sb_go _ _ le_rfl
    have ebu : countChar '\x7b' (drop_underscore_before_punct (subscript_brace
        (collapse_underscores (collapse_ws (strip x))))) =
        countChar '\x7b' (subscript_brace (collapse_underscores
          (collapse_ws (strip x)))) := countChar_du _ _ (by decide)
    have ecu : countChar '\x7d' (drop_underscore_before_punct (subscript_brace
        (collapse_underscores (collapse_ws (strip x))))) =
        countChar '\x7d' (subscript_brace (collapse_underscores
          (collapse_ws (strip x)))) := countChar_du _ _ (by decide)
    have hcnt : countChar '\x7d' (drop_underscore_before_punct (subscript_brace
        (collapse_underscores (collapse_ws (strip x))))) ≤
        countChar '\x7b' (drop_underscore_before_punct (subscript_brace
        (collapse_underscores (collapse_ws (strip x))))) := by
      omega
    have hy : reconstruct x = strip (fix_braces (drop_underscore_before_punct
        (subscript_brace (collapse_underscores (collapse_ws (strip x)))))) := by
      rw [reconstruct, if_neg hx, hds, recon_core,
        show normalize_unicode (strip x) = strip x from rfl, hrg, fix_script_noise, hdc]
    have hmemy : ∀ c ∈ reconstruct x,
        c ∈ strip x ∨ c = ' ' ∨ c = '\x7b' ∨ c = '\x7d' := by
      intro c hc
      rw [hy] at hc
      have h1 := mem_strip _ _ hc
      rcases mem_fb _ _ hcnt h1 with h2 | h2
      · exact hmemu c h2
      · right; right; right; exact h2
    have hspw : noPairAdj (fun a b => a = ' ' && b = ' ')
        (collapse_ws (strip x)) = true := by
      rw [collapse_ws]
      exact noPairAdj_within _ _ _ (strip_within _) (dd_noAdj _)
    have hsp_s : noPairAdj (fun a b => a = ' ' && b = ' ')
        (subscript_brace (collapse_underscores (collapse_ws (strip x)))) = true :=
      np_sb _ (fun y => by simp) (fun y => by simp) (fun y => by simp)
        (fun p q hp => by simp [(alnum_not_special p hp).2.2.2]) _ _ le_rfl
        (np_cu _ _ hspw)
    have hsp_u : noPairAdj (fun a b => a = ' ' && b = ' ')
        (drop_underscore_before_punct (subscript_brace (collapse_underscores
          (collapse_ws (strip x))))) = true :=
      np_du _ (fun p q hq => by simp [(scriptPunct_props q hq).2.2.2.1]) _ hsp_s
    have hsp_y : noPairAdj (fun a b => a = ' ' && b = ' ') (reconstruct x) = true := by
      rw [hy]
      exact noPairAdj_within _ _ _ (strip_within _)
        (np_fb _ _ hcnt hsp_u (fun p => by simp) (fun p => by simp))
    have hup_s : noPairAdj (fun a b => a = '_' && b = '_')
        (subscript_brace (collapse_underscores (collapse_ws (strip x)))) = true :=
      np_sb _ (fun y => by simp) (fun y => by simp) (fun y => by simp)
        (fun p q hp => by simp [(alnum_not_special p hp).2.2.1]) _ _ le_rfl
        (cu_noAdj _)
    have hup_u : noPairAdj (fun a b => a = '_' && b = '_')
        (drop_underscore_before_punct (subscript_brace (collapse_underscores
          (collapse_ws (strip x))))) = true :=
      np_du _ (fun p q hq => by simp [(scriptPunct_props q hq).1]) _ hup_s
    have hup_y : noPairAdj (fun a b => a = '_' && b = '_') (reconstruct x) = true := by
      rw [hy]
      exact noPairAdj_within _ _ _ (strip_within _)
        (np_fb _ _ hcnt hup_u (fun p => by simp) (fun p => by simp))
    have hupn_y : noPairAdj (fun a b => a = '_' && scriptPunct b)
        (reconstruct x) = true := by
      rw [hy]
      apply noPairAdj_within _ _ _ (strip_within _)
      apply np_fb _ _ hcnt (du_complete _ hup_s)
      · intro p
        simp [show scriptPunct '\x7d' = false from rfl]
      · intro p
        simp
    have hscript_y : noScriptP (reconstruct x) := by
      rw [hy]
      exact noScriptP_strip _ (noScriptP_fb _ (noScriptP_du _
        (sb_go_noScript _ _ le_rfl)) hcnt)
    have hbal_y : countChar '\x7b' (reconstruct x) = countChar '\x7d' (reconstruct x) := by
      rw [hy, countChar_strip _ _ (by decide), countChar_strip _ _ (by decide)]
      exact fb_balanced _ hcnt
    have hws_y : ∀ c ∈ reconstruct x, pyWs c = true → c = ' ' := by
      intro c hc hwsc
      rw [hy] at hc
      have h1 := mem_strip _ _ hc
      rcases mem_fb _ _ hcnt h1 with h2 | h2
      · have h3 := mem_du _ _ h2
        rcases mem_sb_go _ _ _ h3 with h4 | h4
        · exact cw_ws _ c (mem_cu _ _ h4) hwsc
        · exfalso
          rcases h4 with h5 | h5 <;> rw [h5] at hwsc <;> cases hwsc
      · exfalso
        rw [h2] at hwsc
        cases hwsc
    rw [hy]
    rw [← hy]
    apply reconstruct_canonical_fixed
    · rw [hy]
      exact strip_idem _
    · intro hm
      rcases hmemy '$' hm with h5 | h5 | h5 | h5
      · exact hdollar (mem_strip x _ h5)
      · cases h5
      · cases h5
      · cases h5
    · intro c hc
      rcases hmemy c hc with h5 | h5 | h5 | h5
      · exact hascii c (mem_strip x c h5)
      · rw [h5]; decide
      · rw [h5]; decide
      · rw [h5]; decide
    · exact hws_y
    · exact hsp_y
    · exact hup_y
    · exact hscript_y
    · exact hupn_y
    · intro hm
      rcases hmemy '^' hm with h5 | h5 | h5 | h5
      · exact hcaret (mem_strip x _ h5)
      · cases h5
      · cases h5
      · cases h5
    · exact hbal_y


/-- C3 counterexample: `reconstruct` is not idempotent — on `$$x$$` the first
run strips one `$...$` wrapper (yielding `$x$`) and a second run strips the
next, so the two sides differ. -/
theorem c3_counterexample :
    reconstruct (reconstruct (("$$x$$").data)) ≠ reconstruct (("$$x$$").data) := by
  decide

/-- Witness for amended C3 at the concrete input `a_b c`: the hypotheses hold
and reconstruction (which rewrites the input to `a_\x7bb\x7d c`) is idempotent
on it. -/
theorem c3_reconstruct_idempotent_on_tame_witness :
    ((∀ c ∈ ("a_b c").data, c.toNat < 128) ∧ '$' ∉ ("a_b c").data ∧
      '^' ∉ ("a_b c").data ∧
      countChar '\x7d' (("a_b c").data) ≤ countChar '\x7b' (("a_b c").data)) ∧
      reconstruct (reconstruct (("a_b c").data)) = reconstruct (("a_b c").data) :=
  ⟨⟨by decide, by decide, by decide, by decide⟩,
    c3_reconstruct_idempotent_on_tame (("a_b c").data)
      (by decide) (by decide) (by decide) (by decide)⟩

end MathExtractor
